import Mathlib

/-!
Ordered map (`package ordered`, `map.go`)

A shallow embedding of `Map[K, V]` and its operations, and theorems about them.

* A Go slice `[]K` is a `List K`; a nil slice and an empty slice are both `[]`
  (the operations only use `len`, indexing, slicing and `append`, which do not
  tell them apart).
* A Go `map[K]V` is `Option (K → Option V)`: `none` is the nil map, `some f`
  an allocated map holding exactly the keys `k` with `f k ≠ none`.
* Go `int` arguments are `Int`.
* The zero value of a type is its `default`.
* A run-time fault (index out of range, assignment to an entry of a nil map) is the
  result `none`; every operation therefore returns an `Option`.
* The mutex `mu` is not part of the state: every method holds it for its whole
  body, so each operation is one atomic step on `(order, dirty)`.
* `Range` calls the visitor without the lock and reads `m.order` element by
  element while the visitor may write to the same backing array.  For it the
  methods are embedded a second time, over a heap of backing arrays (`Mem`);
  `Mem_apply_spec` shows that the two embeddings agree.
-/

namespace Ordered

/-- Go `map[K]V`; `none` is the nil map. -/
abbrev GoMap (K V : Type) := Option (K → Option V)

section Primitives

variable {K V : Type}

/-- The entry stored for `k`, if any; a nil map has no entries. -/
def mapLookup (d : GoMap K V) (k : K) : Option V :=
  match d with
  | none => none
  | some f => f k

/-- Comma-ok read `v, ok := d[k]`: the zero value and `false` for a missing key. -/
def mapGet [Inhabited V] (d : GoMap K V) (k : K) : V × Bool :=
  match mapLookup d k with
  | some v => (v, true)
  | none => (default, false)

/-- Builtin `delete(d, k)`; a no-op on a nil map. -/
def mapDelete [DecidableEq K] (d : GoMap K V) (k : K) : GoMap K V :=
  match d with
  | none => none
  | some f => some (Function.update f k none)

/-- Assignment `d[k] = v`; faults on a nil map. -/
def mapSet [DecidableEq K] (d : GoMap K V) (k : K) (v : V) : Option (GoMap K V) :=
  match d with
  | none => none
  | some f => some (some (Function.update f k (some v)))

/-- Allocation `make(map[K]V)`. -/
def mapMake : GoMap K V := some (fun _ => none)

/-- Index expression `s[i]`; faults outside `[0, len(s))`. -/
def sliceIndex (s : List K) (i : Int) : Option K :=
  if 0 ≤ i ∧ i < (s.length : Int) then s[i.toNat]? else none

/-- Index assignment `s[i] = x`; faults outside `[0, len(s))`. -/
def sliceSet (s : List K) (i : Int) (x : K) : Option (List K) :=
  if 0 ≤ i ∧ i < (s.length : Int) then some (s.set i.toNat x) else none

/-- Slice expression `s[:hi]`; faults when `hi` exceeds the length. -/
def sliceTo (s : List K) (hi : Nat) : Option (List K) :=
  if hi ≤ s.length then some (s.take hi) else none

/-- Slice expression `s[lo:]`; faults when `lo` exceeds the length. -/
def sliceFrom (s : List K) (lo : Nat) : Option (List K) :=
  if lo ≤ s.length then some (s.drop lo) else none

end Primitives

/-- The struct `Map[K, V]` without its mutex. -/
structure Map (K V : Type) where
  order : List K
  dirty : GoMap K V

section Operations

variable {K V : Type} [DecidableEq K] [Inhabited K] [Inhabited V]

/-- The zero `Map`: nil `order`, nil `dirty`. -/
def Map.zero : Map K V := ⟨[], none⟩

/-- The entries mapping of the spec: key to stored value. -/
def Map.entries (m : Map K V) : K → Option V := mapLookup m.dirty

/-- Unexported `load`. -/
def Map.load (m : Map K V) (key : K) : V × Bool :=
  mapGet m.dirty key

/-- Unexported `store`. -/
def Map.store (m : Map K V) (key : K) (value : V) : Option (Map K V) := do
  let order := if (mapGet m.dirty key).2 = false then m.order ++ [key] else m.order
  let dirty := if m.dirty.isNone then mapMake else m.dirty
  let dirty ← mapSet dirty key value
  some ⟨order, dirty⟩

/-- Method `Store`. -/
def Map.Store (m : Map K V) (key : K) (value : V) : Option (Map K V) :=
  m.store key value

/-- Method `StoreFirst`. -/
def Map.StoreFirst (m : Map K V) (key : K) (value : V) : Option (Map K V) := do
  let order := if (mapGet m.dirty key).2 = false then [key] ++ m.order else m.order
  let dirty := if m.dirty.isNone then mapMake else m.dirty
  let dirty ← mapSet dirty key value
  some ⟨order, dirty⟩

/-- Method `LoadOrStore`: the result pair and the new state. -/
def Map.LoadOrStore (m : Map K V) (key : K) (value : V) : Option ((V × Bool) × Map K V) :=
  let (actual, loaded) := m.load key
  if loaded = false then do
    let m1 ← m.store key value
    some ((value, loaded), m1)
  else
    some ((actual, loaded), m)

/-- The `for i := 0; i < len(m.order); i++` loop of `LoadAndDelete`, started at
index `i`; it returns the new `order`.  The first argument bounds the number of
guard evaluations still allowed; with none left there is no result. -/
def Map.deleteLoop (order : List K) (key : K) : Nat → Nat → Option (List K)
  | 0, _ => none
  | fuel + 1, i =>
    if i < order.length then do
      let x ← sliceIndex order i
      if x ≠ key then
        Map.deleteLoop order key fuel (i + 1)
      else
        let front ← sliceTo order i
        let back ← sliceFrom order (i + 1)
        some (front ++ back)
    else
      some order

/-- Method `LoadAndDelete`: the result pair and the new state.  The loop guard is
evaluated at most `len(m.order) + 1` times. -/
def Map.LoadAndDelete (m : Map K V) (key : K) : Option ((V × Bool) × Map K V) := do
  let order ← Map.deleteLoop m.order key (m.order.length + 1) 0
  let r := mapGet m.dirty key
  some (r, ⟨order, mapDelete m.dirty key⟩)

/-- Method `Delete`: calls `LoadAndDelete` and drops its result. -/
def Map.Delete (m : Map K V) (key : K) : Option (Map K V) :=
  (m.LoadAndDelete key).map Prod.snd

/-- Method `LoadAndDeleteFirst`: the result triple and the new state. -/
def Map.LoadAndDeleteFirst (m : Map K V) : Option ((K × V × Bool) × Map K V) :=
  if m.order.length < 1 then
    some ((default, default, false), m)
  else do
    let key ← sliceIndex m.order 0
    let r := mapGet m.dirty key
    some ((key, r.1, r.2), ⟨m.order, mapDelete m.dirty key⟩)

/-- Method `LoadAndDeleteLast`: the result triple and the new state. -/
def Map.LoadAndDeleteLast (m : Map K V) : Option ((K × V × Bool) × Map K V) :=
  if m.order.length < 1 then
    some ((default, default, false), m)
  else do
    let key ← sliceIndex m.order ((m.order.length : Int) - 1)
    let r := mapGet m.dirty key
    some ((key, r.1, r.2), ⟨m.order, mapDelete m.dirty key⟩)

/-- Method `Swap`.  In `m.order[i], m.order[j] = m.order[j], m.order[i]` both
right-hand operands are read before either element is written. -/
def Map.Swap (m : Map K V) (i j : Int) : Option (Map K V) :=
  if i < 0 ∨ i ≥ (m.order.length : Int) ∨ j < 0 ∨ j ≥ (m.order.length : Int) then
    some m
  else do
    let a ← sliceIndex m.order j
    let b ← sliceIndex m.order i
    let order ← sliceSet m.order i a
    let order ← sliceSet order j b
    some ⟨order, m.dirty⟩

/-- A call of one of the public mutating methods. -/
inductive Op (K V : Type) where
  | Store (key : K) (value : V)
  | StoreFirst (key : K) (value : V)
  | LoadOrStore (key : K) (value : V)
  | Delete (key : K)
  | LoadAndDelete (key : K)
  | LoadAndDeleteFirst
  | LoadAndDeleteLast
  | Swap (i j : Int)

/-- The state after one call. -/
def Op.apply (m : Map K V) : Op K V → Option (Map K V)
  | .Store key value => m.Store key value
  | .StoreFirst key value => m.StoreFirst key value
  | .LoadOrStore key value => (m.LoadOrStore key value).map Prod.snd
  | .Delete key => m.Delete key
  | .LoadAndDelete key => (m.LoadAndDelete key).map Prod.snd
  | .LoadAndDeleteFirst => m.LoadAndDeleteFirst.map Prod.snd
  | .LoadAndDeleteLast => m.LoadAndDeleteLast.map Prod.snd
  | .Swap i j => m.Swap i j

/-- The state after a sequence of calls, made one after the other. -/
def Map.run (m : Map K V) : List (Op K V) → Option (Map K V)
  | [] => some m
  | op :: ops => (op.apply m).bind (fun m1 => Map.run m1 ops)

/-- Invariant I1: the keys occurring in `order` are exactly the keys of the
entries mapping. -/
def I1 (m : Map K V) : Prop := ∀ k : K, k ∈ m.order ↔ (m.entries k).isSome = true

/-- Invariant I2: `order` contains each key at most once. -/
def I2 (m : Map K V) : Prop := m.order.Nodup

end Operations

/-! ## Read-only methods, `SortMap`, and clients of `sort.Interface` -/

section Readers

variable {K V : Type} [DecidableEq K] [Inhabited K] [Inhabited V]

/-- Method `Load`: the result pair and the state. -/
def Map.Load (m : Map K V) (key : K) : Option ((V × Bool) × Map K V) :=
  some (m.load key, m)

/-- Method `Index`: the result triple and the state.  The named results start at
their zero values, which the bare `return`s hand back. -/
def Map.Index (m : Map K V) (n : Int) : Option ((K × V × Bool) × Map K V) :=
  if n ≥ 0 then
    if (m.order.length : Int) ≤ n then
      some ((default, default, false), m)
    else do
      let key ← sliceIndex m.order n
      let r := mapGet m.dirty key
      some ((key, r.1, r.2), m)
  else
    if n < -(m.order.length : Int) then
      some ((default, default, false), m)
    else do
      let key ← sliceIndex m.order ((m.order.length : Int) + n)
      let r := mapGet m.dirty key
      some ((key, r.1, r.2), m)

/-- Method `Len`: the result and the state. -/
def Map.Len (m : Map K V) : Option (Int × Map K V) :=
  some ((m.order.length : Int), m)

/-- The struct `SortMap[K, V]`, which embeds `Map[K, V]`. -/
structure SortMap (K V : Type) extends Map K V

/-- Method `Len` of `Map`, promoted to `SortMap`. -/
def SortMap.Len (s : SortMap K V) : Option (Int × SortMap K V) :=
  match s.toMap.Len with
  | some (n, m) => some (n, ⟨m⟩)
  | none => none

/-- Method `Swap` of `Map`, promoted to `SortMap`. -/
def SortMap.Swap (s : SortMap K V) (i j : Int) : Option (SortMap K V) :=
  match s.toMap.Swap i j with
  | some m => some ⟨m⟩
  | none => none

/-- Method `Less` of `SortMap`: the result and the state.  `<` is the order of the
key type. -/
def SortMap.Less [LT K] [∀ a b : K, Decidable (a < b)] (s : SortMap K V) (i j : Int) :
    Option (Bool × SortMap K V) :=
  if i < 0 ∨ i ≥ (s.order.length : Int) ∨ j < 0 ∨ j ≥ (s.order.length : Int) then
    some (false, s)
  else do
    let a ← sliceIndex s.order i
    let b ← sliceIndex s.order j
    some (decide (a < b), s)

/-- `Less` of a plain slice handed to package `sort` (as `sort.IntSlice` or
`sort.StringSlice` implement it): `x[i] < x[j]`, faulting out of range. -/
def sliceLess [LT K] [∀ a b : K, Decidable (a < b)] (x : List K) (i j : Int) : Option Bool := do
  let a ← sliceIndex x i
  let b ← sliceIndex x j
  some (decide (a < b))

/-- `Swap` of a plain slice handed to package `sort`: `x[i], x[j] = x[j], x[i]`,
faulting out of range. -/
def sliceSwap (x : List K) (i j : Int) : Option (List K) := do
  let a ← sliceIndex x j
  let b ← sliceIndex x i
  let x1 ← sliceSet x i a
  sliceSet x1 j b

/-- A terminating client of `sort.Interface`: it reaches the data only by calling
`Len`, `Less` and `Swap`, and each next step depends on the answers so far. -/
inductive Driver where
  | done : Driver
  | len : (Int → Driver) → Driver
  | less : Int → Int → (Bool → Driver) → Driver
  | swap : Int → Int → Driver → Driver

/-- Run a client against a `SortMap`. -/
def Driver.run [LT K] [∀ a b : K, Decidable (a < b)] : Driver → SortMap K V → Option (SortMap K V)
  | .done, s => some s
  | .len k, s =>
    match s.Len with
    | some (n, s1) => (k n).run s1
    | none => none
  | .less i j k, s =>
    match s.Less i j with
    | some (b, s1) => (k b).run s1
    | none => none
  | .swap i j k, s =>
    match s.Swap i j with
    | some s1 => k.run s1
    | none => none

/-- Run a client against a plain slice. -/
def Driver.runSlice [LT K] [∀ a b : K, Decidable (a < b)] : Driver → List K → Option (List K)
  | .done, x => some x
  | .len k, x => (k (x.length : Int)).runSlice x
  | .less i j k, x =>
    match sliceLess x i j with
    | some b => (k b).runSlice x
    | none => none
  | .swap i j k, x =>
    match sliceSwap x i j with
    | some x1 => k.runSlice x1
    | none => none

/-- The inner loop `for j := i; j > a && data.Less(j, j-1); j-- { data.Swap(j, j-1) }`
of the insertion sort of package `sort`, with `a = 0`, followed by `next`. -/
def insertionInner (next : Driver) : Nat → Driver
  | 0 => next
  | j + 1 =>
    .less ((j : Int) + 1) (j : Int) (fun b =>
      if b then .swap ((j : Int) + 1) (j : Int) (insertionInner next j) else next)

/-- The outer loop `for i := a + 1; i < b; i++` of that insertion sort, with
`a = 0`: `count` iterations starting at index `i`. -/
def insertionOuter : Nat → Nat → Driver
  | 0, _ => .done
  | count + 1, i => insertionInner (insertionOuter count (i + 1)) i

/-- Insertion sort over the whole of the data: `insertionSort(data, 0, data.Len())`. -/
def insertionSort : Driver :=
  .len (fun n => insertionOuter (n.toNat - 1) 1)

end Readers

/-! ## Slices in memory, and `Range`

`Range` evaluates `m.order` once and then reads the element for each index from
the backing array at the time of that iteration, while the visitor may call methods
that write to the same array.  The definitions below therefore keep the backing
arrays of slices in a heap.  An array is addressed by its position in the heap and
its capacity is its length; the heap only grows.  How much spare capacity a
reallocating `append` provides is left to the parameter `grow`. -/

/-- A slice header: the address of the backing array (`none` for a nil slice), the
offset of the first element in it, and the length. -/
structure Slice where
  ptr : Option Nat
  off : Nat
  len : Nat

/-- The struct `Map[K, V]` without its mutex, with `order` as a slice header into
the heap. -/
structure Mem (K V : Type) where
  heap : List (List K)
  order : Slice
  dirty : GoMap K V

/-- A visitor passed to `Range`.  From the state of the map it can observe, the
index, the key and the value, it answers whether to go on, and it may call mutating
methods of the same map, in the order listed. -/
abbrev Visitor (K V : Type) := Map K V → Int → K → V → Bool × List (Op K V)

section Memory

variable {K V : Type}

/-- The backing array of a slice header. -/
def backing (heap : List (List K)) (s : Slice) : List K :=
  match s.ptr with
  | none => []
  | some a => heap.getD a []

/-- Builtin `cap(s)`. -/
def memCap (heap : List (List K)) (s : Slice) : Nat :=
  (backing heap s).length - s.off

/-- The elements of the slice `s`, in order. -/
def memElems (heap : List (List K)) (s : Slice) : List K :=
  ((backing heap s).drop s.off).take s.len

/-- Index expression `s[i]`; faults outside `[0, len(s))`. -/
def memIndex (heap : List (List K)) (s : Slice) (i : Int) : Option K :=
  if 0 ≤ i ∧ i < (s.len : Int) then (backing heap s)[s.off + i.toNat]? else none

/-- Index assignment `s[i] = x`, written to the backing array; faults outside
`[0, len(s))`. -/
def memSet (heap : List (List K)) (s : Slice) (i : Int) (x : K) : Option (List (List K)) :=
  if 0 ≤ i ∧ i < (s.len : Int) then
    match s.ptr with
    | none => none
    | some a => some (heap.set a ((heap.getD a []).set (s.off + i.toNat) x))
  else none

/-- Slice expression `s[:hi]`; faults when `hi` exceeds the capacity. -/
def memSliceTo (heap : List (List K)) (s : Slice) (hi : Nat) : Option Slice :=
  if hi ≤ memCap heap s then some ⟨s.ptr, s.off, hi⟩ else none

/-- Slice expression `s[lo:]`; faults when `lo` exceeds the length. -/
def memSliceFrom (s : Slice) (lo : Nat) : Option Slice :=
  if lo ≤ s.len then some ⟨s.ptr, s.off + lo, s.len - lo⟩ else none

/-- Builtin `append(dst, elems...)`, the elements having been read beforehand.  If
they fit into the capacity of `dst` they are written to its backing array behind
its last element; otherwise a new array is allocated that holds the elements of
`dst`, then `elems`, then spare zero values. -/
def memAppend [Inhabited K] (grow : Nat → Nat → Nat) (heap : List (List K)) (dst : Slice)
    (elems : List K) : List (List K) × Slice :=
  if dst.len + elems.length ≤ memCap heap dst then
    match dst.ptr with
    | none => (heap, dst)
    | some a =>
      (heap.set a ((heap.getD a []).take (dst.off + dst.len) ++ elems
          ++ (heap.getD a []).drop (dst.off + dst.len + elems.length)),
        ⟨dst.ptr, dst.off, dst.len + elems.length⟩)
  else
    (heap ++ [memElems heap dst ++ elems
        ++ List.replicate (grow (memCap heap dst) (dst.len + elems.length)) default],
      ⟨some heap.length, 0, dst.len + elems.length⟩)

variable [DecidableEq K] [Inhabited K] [Inhabited V]

/-- The zero `Map` in memory. -/
def Mem.zero : Mem K V := ⟨[], ⟨none, 0, 0⟩, none⟩

/-- The state `(order, dirty)` a memory state stands for. -/
def Mem.view (m : Mem K V) : Map K V := ⟨memElems m.heap m.order, m.dirty⟩

/-- The header of `order` lies inside its backing array, at offset 0. -/
def Mem.WF (m : Mem K V) : Prop :=
  m.order.off = 0 ∧
  match m.order.ptr with
  | none => m.order.len = 0
  | some a => a < m.heap.length ∧ m.order.len ≤ (m.heap.getD a []).length

/-- The array at address `a0` still holds the keys `ks` at its front, and `order`,
if it lives in that array, is not shorter than `ks`.  This is what a `Range` over
that array relies on while the visitor only stores. -/
def Mem.Captured (m : Mem K V) (a0 : Nat) (ks : List K) : Prop :=
  m.WF ∧ a0 < m.heap.length ∧
  (∀ i : Nat, i < ks.length → (m.heap.getD a0 [])[i]? = ks[i]?) ∧
  (m.order.ptr = some a0 → ks.length ≤ m.order.len)

/-- Unexported `store`, in memory. -/
def Mem.store (grow : Nat → Nat → Nat) (m : Mem K V) (key : K) (value : V) :
    Option (Mem K V) := do
  let r := if (mapGet m.dirty key).2 = false then memAppend grow m.heap m.order [key]
    else (m.heap, m.order)
  let dirty := if m.dirty.isNone then mapMake else m.dirty
  let dirty ← mapSet dirty key value
  some ⟨r.1, r.2, dirty⟩

/-- Method `Store`, in memory. -/
def Mem.Store (grow : Nat → Nat → Nat) (m : Mem K V) (key : K) (value : V) :
    Option (Mem K V) :=
  m.store grow key value

/-- Method `StoreFirst`, in memory: `append([]K{key}, m.order...)` allocates the
one-element array of the literal and appends the elements of `order` to it. -/
def Mem.StoreFirst (grow : Nat → Nat → Nat) (m : Mem K V) (key : K) (value : V) :
    Option (Mem K V) := do
  let r := if (mapGet m.dirty key).2 = false then
      memAppend grow (m.heap ++ [[key]]) ⟨some m.heap.length, 0, 1⟩
        (memElems (m.heap ++ [[key]]) m.order)
    else (m.heap, m.order)
  let dirty := if m.dirty.isNone then mapMake else m.dirty
  let dirty ← mapSet dirty key value
  some ⟨r.1, r.2, dirty⟩

/-- Method `LoadOrStore`, in memory. -/
def Mem.LoadOrStore (grow : Nat → Nat → Nat) (m : Mem K V) (key : K) (value : V) :
    Option ((V × Bool) × Mem K V) :=
  let (actual, loaded) := mapGet m.dirty key
  if loaded = false then do
    let m1 ← m.store grow key value
    some ((value, loaded), m1)
  else
    some ((actual, loaded), m)

/-- The loop of `LoadAndDelete`, in memory: `append(m.order[:i], m.order[i+1:]...)`
moves the elements behind index `i` one place down in the backing array of `order`. -/
def Mem.deleteLoop (grow : Nat → Nat → Nat) (heap : List (List K)) (order : Slice) (key : K) :
    Nat → Nat → Option (List (List K) × Slice)
  | 0, _ => none
  | fuel + 1, i =>
    if i < order.len then do
      let x ← memIndex heap order i
      if x ≠ key then
        Mem.deleteLoop grow heap order key fuel (i + 1)
      else
        let front ← memSliceTo heap order i
        let back ← memSliceFrom order (i + 1)
        some (memAppend grow heap front (memElems heap back))
    else
      some (heap, order)

/-- Method `LoadAndDelete`, in memory. -/
def Mem.LoadAndDelete (grow : Nat → Nat → Nat) (m : Mem K V) (key : K) :
    Option ((V × Bool) × Mem K V) := do
  let r ← Mem.deleteLoop grow m.heap m.order key (m.order.len + 1) 0
  some (mapGet m.dirty key, ⟨r.1, r.2, mapDelete m.dirty key⟩)

/-- Method `Delete`, in memory. -/
def Mem.Delete (grow : Nat → Nat → Nat) (m : Mem K V) (key : K) : Option (Mem K V) :=
  (m.LoadAndDelete grow key).map Prod.snd

/-- Builtin `copy(dst, elems...)`, the source elements having been read beforehand
(source and destination may overlap): as many elements as both have are written
to the backing array of `dst`, from its first element on. -/
def memCopy (heap : List (List K)) (dst : Slice) (elems : List K) : List (List K) :=
  match dst.ptr with
  | none => heap
  | some a =>
    heap.set a ((heap.getD a []).take dst.off ++ elems.take (min dst.len elems.length)
      ++ (heap.getD a []).drop (dst.off + min dst.len elems.length))

/-- The loop of `newLoadAndDelete` (`map_test.go`), in memory: with `tail` for
`end := m.order[i+1:]`, it shortens `m.order` to `m.order[:len(m.order)-1]` and
copies `tail` over `m.order[i:]`. -/
def Mem.newDeleteLoop (heap : List (List K)) (order : Slice) (key : K) :
    Nat → Nat → Option (List (List K) × Slice)
  | 0, _ => none
  | fuel + 1, i =>
    if i < order.len then do
      let x ← memIndex heap order i
      if x ≠ key then
        Mem.newDeleteLoop heap order key fuel (i + 1)
      else
        let tail ← memSliceFrom order (i + 1)
        let order1 ← if 0 ≤ (order.len : Int) - 1 then
            memSliceTo heap order ((order.len : Int) - 1).toNat
          else none
        let dst ← memSliceFrom order1 i
        some (memCopy heap dst (memElems heap tail), order1)
    else
      some (heap, order)

/-- Method `newLoadAndDelete` (`map_test.go`), in memory. -/
def Mem.newLoadAndDelete (m : Mem K V) (key : K) : Option ((V × Bool) × Mem K V) := do
  let r ← Mem.newDeleteLoop m.heap m.order key (m.order.len + 1) 0
  some (mapGet m.dirty key, ⟨r.1, r.2, mapDelete m.dirty key⟩)

/-- Method `LoadAndDeleteFirst`, in memory. -/
def Mem.LoadAndDeleteFirst (m : Mem K V) : Option ((K × V × Bool) × Mem K V) :=
  if m.order.len < 1 then
    some ((default, default, false), m)
  else do
    let key ← memIndex m.heap m.order 0
    let r := mapGet m.dirty key
    some ((key, r.1, r.2), ⟨m.heap, m.order, mapDelete m.dirty key⟩)

/-- Method `LoadAndDeleteLast`, in memory. -/
def Mem.LoadAndDeleteLast (m : Mem K V) : Option ((K × V × Bool) × Mem K V) :=
  if m.order.len < 1 then
    some ((default, default, false), m)
  else do
    let key ← memIndex m.heap m.order ((m.order.len : Int) - 1)
    let r := mapGet m.dirty key
    some ((key, r.1, r.2), ⟨m.heap, m.order, mapDelete m.dirty key⟩)

/-- Method `Swap`, in memory. -/
def Mem.Swap (m : Mem K V) (i j : Int) : Option (Mem K V) :=
  if i < 0 ∨ i ≥ (m.order.len : Int) ∨ j < 0 ∨ j ≥ (m.order.len : Int) then
    some m
  else do
    let a ← memIndex m.heap m.order j
    let b ← memIndex m.heap m.order i
    let heap ← memSet m.heap m.order i a
    let heap ← memSet heap m.order j b
    some ⟨heap, m.order, m.dirty⟩

/-- The state in memory after one call. -/
def Mem.apply (grow : Nat → Nat → Nat) (m : Mem K V) : Op K V → Option (Mem K V)
  | .Store key value => m.Store grow key value
  | .StoreFirst key value => m.StoreFirst grow key value
  | .LoadOrStore key value => (m.LoadOrStore grow key value).map Prod.snd
  | .Delete key => m.Delete grow key
  | .LoadAndDelete key => (m.LoadAndDelete grow key).map Prod.snd
  | .LoadAndDeleteFirst => m.LoadAndDeleteFirst.map Prod.snd
  | .LoadAndDeleteLast => m.LoadAndDeleteLast.map Prod.snd
  | .Swap i j => m.Swap i j

/-- The state in memory after a sequence of calls. -/
def Mem.run (grow : Nat → Nat → Nat) (m : Mem K V) : List (Op K V) → Option (Mem K V)
  | [] => some m
  | op :: ops => (Mem.apply grow m op).bind (fun m1 => Mem.run grow m1 ops)

/-- The loop `for index, key := range m.order` of `Range`.  `c` is the header of
`m.order` as evaluated once before the loop; the first number is how many
iterations are left, the second the index.  Each iteration reads its key from
the backing array of `c` as it is then, reads `m.dirty[key]` as it is then, and
calls the visitor, which may change the map.  The result lists the calls made. -/
def Mem.rangeLoop (grow : Nat → Nat → Nat) (f : Visitor K V) (c : Slice) :
    Nat → Nat → Mem K V → Option (List (Int × K × V) × Mem K V)
  | 0, _, m => some ([], m)
  | left + 1, index, m => do
    let key ← memIndex m.heap c index
    let value := (mapGet m.dirty key).1
    let r := f m.view index key value
    let m1 ← Mem.run grow m r.2
    if r.1 then do
      let rest ← Mem.rangeLoop grow f c left (index + 1) m1
      some (((index : Int), key, value) :: rest.1, rest.2)
    else
      some ([((index : Int), key, value)], m1)

/-- Method `Range`: the calls made to the visitor, in order, and the final state. -/
def Mem.Range (grow : Nat → Nat → Nat) (f : Visitor K V) (m : Mem K V) :
    Option (List (Int × K × V) × Mem K V) :=
  if m.order.len < 1 then
    some ([], m)
  else
    Mem.rangeLoop grow f m.order m.order.len 0 m

/-- The calls `Range` makes when every visit answers `true` and nothing changes the
map meanwhile: one per position, with the key there and the value read for it. -/
def Map.calls (m : Map K V) : List (Int × K × V) :=
  m.order.enum.map (fun p => ((p.1 : Int), p.2, (mapGet m.dirty p.2).1))

/-- `Range` as the specification words it: the key sequence is captured at call
start, and the visit of each captured key reads the value stored for it at that
moment and lets the visitor change the map.  `index` is the position of the first
key listed. -/
def Map.rangeSnapshot (f : Visitor K V) :
    List K → Nat → Map K V → Option (List (Int × K × V) × Map K V)
  | [], _, m => some ([], m)
  | key :: keys, index, m => do
    let value := (mapGet m.dirty key).1
    let r := f m index key value
    let m1 ← m.run r.2
    if r.1 then do
      let rest ← Map.rangeSnapshot f keys (index + 1) m1
      some (((index : Int), key, value) :: rest.1, rest.2)
    else
      some ([((index : Int), key, value)], m1)

end Memory

/-! ## Concrete states -/

/-- The state `order = [a, b]`, `dirty = {a: 1, b: 2}`. -/
def exAB : Map String Int :=
  ⟨["a", "b"], some (Function.update (Function.update (fun _ => none) "a" (some 1)) "b" (some 2))⟩

/-- The state `order = [one, two]`, `dirty = {one: 1, two: 2}`. -/
def exOneTwo : Map String Int :=
  ⟨["one", "two"],
    some (Function.update (Function.update (fun _ => none) "one" (some 1)) "two" (some 2))⟩

/-- The state `order = [3, 1, 2]`, `dirty = {3: "three", 1: "one", 2: "two"}` of a
`SortMap[int, string]`. -/
def exSort : SortMap Int String :=
  ⟨⟨[3, 1, 2], some (Function.update (Function.update (Function.update (fun _ => none)
    3 (some "three")) 1 (some "one")) 2 (some "two"))⟩⟩

/-- The state `order = [a, b, c]`, `dirty = {a: 1, b: 2, c: 3}` in memory, with the
three keys in one backing array of capacity 3. -/
def memABC : Mem String Int :=
  ⟨[["a", "b", "c"]], ⟨some 0, 0, 3⟩,
    some (Function.update (Function.update (Function.update (fun _ => none)
      "a" (some 1)) "b" (some 2)) "c" (some 3))⟩

/-- A visitor that always answers `true` and calls `Swap(1, 2)` during its first
visit. -/
def swapVisitor : Visitor String Int :=
  fun _ index _ _ => (true, if index = 0 then [Op.Swap 1 2] else [])

/-- A visitor that always answers `true` and calls `Delete("a")` during its first
visit. -/
def deleteVisitor : Visitor String Int :=
  fun _ index _ _ => (true, if index = 0 then [Op.Delete "a"] else [])

/-- A visitor that always answers `true` and calls `LoadAndDelete("a")` during its
first visit. -/
def loadAndDeleteVisitor : Visitor String Int :=
  fun _ index _ _ => (true, if index = 0 then [Op.LoadAndDelete "a"] else [])

/-- A visitor that always answers `true` and, during its first visit, calls
`Store("d", 4)`, `StoreFirst("e", 5)` and `Store("b", 20)`. -/
def storeVisitor : Visitor String Int :=
  fun _ index _ _ =>
    (true, if index = 0 then [Op.Store "d" 4, Op.StoreFirst "e" 5, Op.Store "b" 20] else [])

/-- A visitor that leaves the map alone and answers `false` at index 1. -/
def stopVisitor : Visitor String Int :=
  fun _ index _ _ => (decide (index ≠ 1), [])

/-- A visitor that leaves the map alone and always answers `true`. -/
def idleVisitor : Visitor String Int :=
  fun _ _ _ _ => (true, [])

/-! ## Auxiliary lemmas -/

section Lemmas

variable {K V : Type}

theorem sliceIndex_natCast (s : List K) (i : Nat) : sliceIndex s (i : Int) = s[i]? := by
  unfold sliceIndex
  by_cases h : i < s.length
  · simp [h]
  · have h2 : s.length ≤ i := Nat.le_of_not_lt h
    simp [h, List.getElem?_eq_none h2]

/-- From index `i` on, with enough guard evaluations left, the loop of
`LoadAndDelete` keeps the first `i` keys and erases the first occurrence of `key`
among the others. -/
theorem deleteLoop_eq [DecidableEq K] (order : List K) (key : K) (fuel i : Nat)
    (hi : i ≤ order.length) (hf : order.length + 1 ≤ fuel + i) :
    Map.deleteLoop order key fuel i = some (order.take i ++ (order.drop i).erase key) := by
  induction fuel generalizing i with
  | zero => omega
  | succ n ih =>
    unfold Map.deleteLoop
    by_cases hlt : i < order.length
    · have hd : order.drop i = order[i] :: order.drop (i + 1) := List.drop_eq_getElem_cons hlt
      have hidx : sliceIndex order (i : Int) = some order[i] := by
        rw [sliceIndex_natCast, List.getElem?_eq_getElem hlt]
      rw [if_pos hlt, hidx, hd]
      by_cases hx : order[i] = key
      · simp [hx, sliceTo, sliceFrom, Nat.le_of_lt hlt, Nat.succ_le_of_lt hlt]
      · have hne : (order[i] == key) = false := by simpa using hx
        have ht : List.take (i + 1) order = List.take i order ++ [order[i]] := by
          rw [List.take_succ, List.getElem?_eq_getElem hlt]; rfl
        rw [List.erase_cons, hne]
        simp only [Option.bind_eq_bind, Option.some_bind, ne_eq, hx, not_false_eq_true, if_true]
        rw [ih (i + 1) hlt (by omega), ht, List.append_assoc]
        rfl
    · have hEq : i = order.length := by omega
      subst hEq
      simp

/-- `LoadAndDelete` always returns: the comma-ok read of `key`, `order` without the
first occurrence of `key`, and `dirty` without `key`. -/
theorem LoadAndDelete_eq [DecidableEq K] [Inhabited V] (m : Map K V) (key : K) :
    m.LoadAndDelete key =
      some (mapGet m.dirty key, ⟨m.order.erase key, mapDelete m.dirty key⟩) := by
  unfold Map.LoadAndDelete
  rw [deleteLoop_eq m.order key (m.order.length + 1) 0 (Nat.zero_le _) (by omega)]
  simp

theorem Delete_eq [DecidableEq K] [Inhabited V] (m : Map K V) (key : K) :
    m.Delete key = some ⟨m.order.erase key, mapDelete m.dirty key⟩ := by
  unfold Map.Delete
  rw [LoadAndDelete_eq]
  rfl

theorem mapGet_of_lookup_some [Inhabited V] (d : GoMap K V) (k : K) (v : V)
    (h : mapLookup d k = some v) : mapGet d k = (v, true) := by
  simp [mapGet, h]

theorem mapGet_of_lookup_none [Inhabited V] (d : GoMap K V) (k : K)
    (h : mapLookup d k = none) : mapGet d k = (default, false) := by
  simp [mapGet, h]

theorem mapGet_snd [Inhabited V] (d : GoMap K V) (k : K) :
    (mapGet d k).2 = (mapLookup d k).isSome := by
  unfold mapGet
  cases mapLookup d k <;> rfl

theorem mapLookup_delete [DecidableEq K] (d : GoMap K V) (k : K) :
    mapLookup (mapDelete d k) = Function.update (mapLookup d) k none := by
  cases d with
  | none => funext x; simp [mapDelete, mapLookup, Function.update_apply]
  | some f => rfl

theorem mapDelete_absent [DecidableEq K] (d : GoMap K V) (k : K) (h : mapLookup d k = none) :
    mapDelete d k = d := by
  cases d with
  | none => rfl
  | some f =>
    have hf : f k = none := h
    simp only [mapDelete]
    rw [← hf, Function.update_eq_self]

theorem exAB_I1 : I1 exAB := by
  intro k
  simp [exAB, Map.entries, mapLookup, Function.update_apply]
  by_cases hb : k = "b"
  · simp [hb]
  · by_cases ha : k = "a"
    · simp [ha]
    · simp [ha, hb]

theorem exAB_I2 : I2 exAB := by
  simp [I2, exAB]

theorem exOneTwo_I1 : I1 exOneTwo := by
  intro k
  simp [exOneTwo, Map.entries, mapLookup, Function.update_apply]
  by_cases hb : k = "two"
  · simp [hb]
  · by_cases ha : k = "one"
    · simp [ha]
    · simp [ha, hb]

theorem zero_I1 : I1 (Map.zero : Map String Int) := by
  intro k
  simp [Map.zero, Map.entries, mapLookup]

end Lemmas

/-! ## Store and StoreFirst -/

/-- C3: `Store(k, v)` returns on every state, the zero map included; afterwards the
entries mapping is the old one updated with `k ↦ v`, and `order` is the old `order`
when `k` had an entry and the old `order` with `k` appended otherwise. -/
theorem Store_post {K V : Type} [DecidableEq K] [Inhabited V] (m : Map K V) (k : K) (v : V) :
    ∃ m1 : Map K V, m.Store k v = some m1 ∧
      m1.entries = Function.update m.entries k (some v) ∧
      m1.order = if (m.entries k).isSome = true then m.order else m.order ++ [k] := by
  obtain ⟨order, dirty⟩ := m
  cases dirty with
  | none =>
    refine ⟨_, rfl, ?_, ?_⟩
    · funext x; simp [Map.entries, mapLookup, Function.update_apply]
    · simp [Map.entries, mapLookup, mapGet]
  | some f =>
    refine ⟨_, rfl, ?_, ?_⟩
    · rfl
    · simp only [Map.entries, mapLookup, mapGet]
      cases f k <;> simp

/-- C4: `StoreFirst(k, v)` returns on every state, the zero map included; afterwards
the entries mapping is the old one updated with `k ↦ v`, and `order` is the old
`order` when `k` had an entry and `k` followed by the old `order` otherwise. -/
theorem StoreFirst_post {K V : Type} [DecidableEq K] [Inhabited V] (m : Map K V) (k : K)
    (v : V) :
    ∃ m1 : Map K V, m.StoreFirst k v = some m1 ∧
      m1.entries = Function.update m.entries k (some v) ∧
      m1.order = if (m.entries k).isSome = true then m.order else k :: m.order := by
  obtain ⟨order, dirty⟩ := m
  cases dirty with
  | none =>
    refine ⟨_, rfl, ?_, ?_⟩
    · funext x; simp [Map.entries, mapLookup, Function.update_apply]
    · simp [Map.entries, mapLookup, mapGet]
  | some f =>
    refine ⟨_, rfl, ?_, ?_⟩
    · rfl
    · simp only [Map.entries, mapLookup, mapGet]
      cases f k <;> simp

/-! ## Deletion by key -/

/-- C5: on a state satisfying I1 and I2 in which `k` has the value `v`,
`LoadAndDelete(k)` returns `(v, true)` and `Delete(k)` reaches the same state; in
that state `k` has no entry and does not occur in `order`, `order` is the old
`order` with the occurrence of `k` filtered out (one key shorter, the other keys in
their old relative order), and every other key keeps its entry. -/
theorem LoadAndDelete_present {K V : Type} [DecidableEq K] [Inhabited V] (m : Map K V) (k : K)
    (v : V) (h1 : I1 m) (h2 : I2 m) (hk : m.entries k = some v) :
    ∃ m1 : Map K V, m.LoadAndDelete k = some ((v, true), m1) ∧ m.Delete k = some m1 ∧
      m1.entries k = none ∧ k ∉ m1.order ∧
      m1.order = m.order.filter (fun x => decide (x ≠ k)) ∧
      m1.order.length + 1 = m.order.length ∧
      ∀ k1 : K, k1 ≠ k → m1.entries k1 = m.entries k1 := by
  have hmem : k ∈ m.order := (h1 k).2 (by rw [hk]; rfl)
  have hfil : m.order.erase k = m.order.filter (fun x => decide (x ≠ k)) := by
    rw [List.Nodup.erase_eq_filter h2]
    congr 1
    funext x
    simp [bne, BEq.beq]
  refine ⟨⟨m.order.erase k, mapDelete m.dirty k⟩, ?_, Delete_eq m k, ?_, ?_, hfil, ?_, ?_⟩
  · rw [LoadAndDelete_eq, mapGet_of_lookup_some m.dirty k v hk]
  · simp [Map.entries, mapLookup_delete]
  · exact fun h => (List.Nodup.mem_erase_iff h2).1 h |>.1 rfl
  · show (m.order.erase k).length + 1 = m.order.length
    rw [List.length_erase_of_mem hmem]
    have : 0 < m.order.length := List.length_pos_of_mem hmem
    omega
  · intro k1 hne
    simp [Map.entries, mapLookup_delete, Function.update_apply, hne]

/-- Instance of `LoadAndDelete_present`: deleting `a` from `[a, b]`. -/
theorem LoadAndDelete_present_witness :
    I1 exAB ∧ I2 exAB ∧ exAB.entries "a" = some 1 ∧
    ∃ m1 : Map String Int, exAB.LoadAndDelete "a" = some ((1, true), m1) ∧
      exAB.Delete "a" = some m1 ∧
      m1.entries "a" = none ∧ "a" ∉ m1.order ∧
      m1.order = exAB.order.filter (fun x => decide (x ≠ "a")) ∧
      m1.order.length + 1 = exAB.order.length ∧
      ∀ k1 : String, k1 ≠ "a" → m1.entries k1 = exAB.entries k1 :=
  ⟨exAB_I1, exAB_I2, by decide, LoadAndDelete_present exAB "a" 1 exAB_I1 exAB_I2 (by decide)⟩

/-- C6: on a state satisfying I1, for a key `k` without an entry `LoadAndDelete(k)`
returns `(zero, false)` and both it and `Delete(k)` leave the state as it was; and
when the state also satisfies I2, for any key `k`, `Delete(k)` returns a state on
which a second `Delete(k)` changes nothing. -/
theorem Delete_absent_noop {K V : Type} [DecidableEq K] [Inhabited V] (m : Map K V) (k : K)
    (h1 : I1 m) :
    (m.entries k = none →
      m.LoadAndDelete k = some ((default, false), m) ∧ m.Delete k = some m) ∧
    (I2 m → ∃ m1 : Map K V, m.Delete k = some m1 ∧ m1.Delete k = some m1) := by
  have hnoop : ∀ m0 : Map K V, k ∉ m0.order → m0.entries k = none →
      m0.LoadAndDelete k = some ((default, false), m0) ∧ m0.Delete k = some m0 := by
    intro m0 hnot hk
    have hst : (⟨m0.order.erase k, mapDelete m0.dirty k⟩ : Map K V) = m0 := by
      rw [List.erase_of_not_mem hnot, mapDelete_absent m0.dirty k hk]
    constructor
    · rw [LoadAndDelete_eq, mapGet_of_lookup_none m0.dirty k hk, hst]
    · rw [Delete_eq, hst]
  constructor
  · intro hk
    have hnot : k ∉ m.order := by
      intro hmem
      have := (h1 k).1 hmem
      rw [hk] at this
      exact Bool.noConfusion this
    exact hnoop m hnot hk
  · intro h2
    refine ⟨⟨m.order.erase k, mapDelete m.dirty k⟩, Delete_eq m k, ?_⟩
    refine (hnoop _ ?_ ?_).2
    · exact fun h => (List.Nodup.mem_erase_iff h2).1 h |>.1 rfl
    · simp [Map.entries, mapLookup_delete]

/-- Instance of `Delete_absent_noop`: on `[a, b]`, the absent key `c` and the present
key `a`. -/
theorem Delete_absent_noop_witness :
    I1 exAB ∧ exAB.entries "c" = none ∧ I2 exAB ∧
    (exAB.LoadAndDelete "c" = some ((0, false), exAB) ∧ exAB.Delete "c" = some exAB) ∧
    ∃ m1 : Map String Int, exAB.Delete "a" = some m1 ∧ m1.Delete "a" = some m1 :=
  ⟨exAB_I1, by decide, exAB_I2, (Delete_absent_noop exAB "c" exAB_I1).1 (by decide),
    (Delete_absent_noop exAB "a" exAB_I1).2 exAB_I2⟩

/-! ## Deletion by position -/

/-- C9: on a state satisfying I1, `LoadAndDeleteFirst()` returns
`(zero, zero, false)` and the unchanged state when `order` is empty, and otherwise
returns `(order[0], v, true)` where `v` is the value stored for `order[0]`. -/
theorem LoadAndDeleteFirst_result {K V : Type} [DecidableEq K] [Inhabited K] [Inhabited V]
    (m : Map K V) (h1 : I1 m) :
    (m.order = [] → m.LoadAndDeleteFirst = some ((default, default, false), m)) ∧
    (m.order ≠ [] → ∃ (k0 : K) (v : V) (m1 : Map K V), m.order[0]? = some k0 ∧
      m.entries k0 = some v ∧ m.LoadAndDeleteFirst = some ((k0, v, true), m1)) := by
  constructor
  · intro h
    simp [Map.LoadAndDeleteFirst, h]
  · intro hne
    obtain ⟨order, dirty⟩ := m
    cases order with
    | nil => exact absurd rfl hne
    | cons k0 rest =>
      have hsome := (h1 k0).1 (List.mem_cons_self k0 rest)
      obtain ⟨v, hv⟩ := Option.isSome_iff_exists.1 hsome
      refine ⟨k0, v, ⟨k0 :: rest, mapDelete dirty k0⟩, by simp, hv, ?_⟩
      have hidx : sliceIndex (k0 :: rest) 0 = some k0 := by
        simpa using sliceIndex_natCast (k0 :: rest) 0
      simp [Map.LoadAndDeleteFirst, hidx, mapGet_of_lookup_some dirty k0 v hv]

/-- Instance of `LoadAndDeleteFirst_result`: the zero map and `[a, b]`. -/
theorem LoadAndDeleteFirst_result_witness :
    I1 (Map.zero : Map String Int) ∧ I1 exAB ∧
    (Map.zero : Map String Int).LoadAndDeleteFirst = some (("", 0, false), Map.zero) ∧
    ∃ (k0 : String) (v : Int) (m1 : Map String Int), exAB.order[0]? = some k0 ∧
      exAB.entries k0 = some v ∧ exAB.LoadAndDeleteFirst = some ((k0, v, true), m1) :=
  ⟨zero_I1, exAB_I1, (LoadAndDeleteFirst_result Map.zero zero_I1).1 rfl,
    (LoadAndDeleteFirst_result exAB exAB_I1).2 (by simp [exAB])⟩

/-- C10: on a state satisfying I1, `LoadAndDeleteLast()` returns
`(zero, zero, false)` and the unchanged state when `order` is empty, and otherwise
returns `(order[len-1], v, true)` where `v` is the value stored for `order[len-1]`. -/
theorem LoadAndDeleteLast_result {K V : Type} [DecidableEq K] [Inhabited K] [Inhabited V]
    (m : Map K V) (h1 : I1 m) :
    (m.order = [] → m.LoadAndDeleteLast = some ((default, default, false), m)) ∧
    (m.order ≠ [] → ∃ (kn : K) (v : V) (m1 : Map K V),
      m.order[m.order.length - 1]? = some kn ∧
      m.entries kn = some v ∧ m.LoadAndDeleteLast = some ((kn, v, true), m1)) := by
  constructor
  · intro h
    simp [Map.LoadAndDeleteLast, h]
  · intro hne
    have hpos : 0 < m.order.length := List.length_pos.2 hne
    have hlt : m.order.length - 1 < m.order.length := by omega
    have hget : m.order[m.order.length - 1]? = some m.order[m.order.length - 1] :=
      List.getElem?_eq_getElem hlt
    have hsome := (h1 m.order[m.order.length - 1]).1 (List.getElem_mem hlt)
    obtain ⟨v, hv⟩ := Option.isSome_iff_exists.1 hsome
    refine ⟨m.order[m.order.length - 1], v,
      ⟨m.order, mapDelete m.dirty m.order[m.order.length - 1]⟩, hget, hv, ?_⟩
    have hcast : ((m.order.length : Int) - 1) = ((m.order.length - 1 : Nat) : Int) := by omega
    have hidx : sliceIndex m.order ((m.order.length : Int) - 1)
        = some m.order[m.order.length - 1] := by
      rw [hcast, sliceIndex_natCast, hget]
    have hn : ¬ m.order.length < 1 := by omega
    simp only [Map.LoadAndDeleteLast, if_neg hn, hidx, Option.bind_eq_bind, Option.some_bind,
      mapGet_of_lookup_some m.dirty _ v hv]

/-- Instance of `LoadAndDeleteLast_result`: the zero map and `[a, b]`. -/
theorem LoadAndDeleteLast_result_witness :
    I1 (Map.zero : Map String Int) ∧ I1 exAB ∧
    (Map.zero : Map String Int).LoadAndDeleteLast = some (("", 0, false), Map.zero) ∧
    ∃ (kn : String) (v : Int) (m1 : Map String Int),
      exAB.order[exAB.order.length - 1]? = some kn ∧
      exAB.entries kn = some v ∧ exAB.LoadAndDeleteLast = some ((kn, v, true), m1) :=
  ⟨zero_I1, exAB_I1, (LoadAndDeleteLast_result Map.zero zero_I1).1 rfl,
    (LoadAndDeleteLast_result exAB exAB_I1).2 (by simp [exAB])⟩

/-- C7: what `LoadAndDeleteFirst` does on `order = [one, two]`,
`dirty = {one: 1, two: 2}` (reached from the zero map by two `Store` calls, and
satisfying I1 and I2): it returns `(one, 1, true)` and removes the entry of `one`,
but `order` is still `[one, two]`, not `[two]`. -/
theorem LoadAndDeleteFirst_keeps_order :
    (Map.zero : Map String Int).run [.Store "one" 1, .Store "two" 2] = some exOneTwo ∧
    I1 exOneTwo ∧ I2 exOneTwo ∧
    ∃ m1 : Map String Int, exOneTwo.LoadAndDeleteFirst = some (("one", 1, true), m1) ∧
      m1.order = ["one", "two"] ∧ m1.order ≠ ["two"] ∧ m1.entries "one" = none := by
  refine ⟨rfl, exOneTwo_I1, by unfold I2; decide, _, rfl, rfl, by decide, by decide⟩

/-- C8: what `LoadAndDeleteLast` does on `order = [a, b]`, `dirty = {a: 1, b: 2}`
(reached from the zero map by two `Store` calls, and satisfying I1 and I2): it
returns `(b, 2, true)` and removes the entry of `b`, but `order` is still `[a, b]`,
not `[a]`. -/
theorem LoadAndDeleteLast_keeps_order :
    (Map.zero : Map String Int).run [.Store "a" 1, .Store "b" 2] = some exAB ∧
    I1 exAB ∧ I2 exAB ∧
    ∃ m1 : Map String Int, exAB.LoadAndDeleteLast = some (("b", 2, true), m1) ∧
      m1.order = ["a", "b"] ∧ m1.order ≠ ["a"] ∧ m1.entries "b" = none := by
  refine ⟨rfl, exAB_I1, exAB_I2, _, rfl, rfl, by decide, by decide⟩

/-! ## The invariants along sequences of calls -/

/-- C1: what the code does on the zero map with `Store("a", 1)` followed by
`LoadAndDeleteFirst()`: the entry of `a` is gone while `order` is still `[a]`, so
I1 does not hold in the state reached. -/
theorem I1_fails_after_LoadAndDeleteFirst :
    ∃ m : Map String Int,
      (Map.zero : Map String Int).run [.Store "a" 1, .LoadAndDeleteFirst] = some m ∧
      m.order = ["a"] ∧ m.entries "a" = none ∧ ¬ I1 m := by
  refine ⟨_, rfl, rfl, by decide, ?_⟩
  intro h
  have hsome := (h "a").1 (by decide)
  revert hsome
  decide

/-- C2: what the code does on the zero map with `Store("a", 1)`,
`LoadAndDeleteFirst()`, `Store("a", 2)`: the second `Store` finds no entry for `a`
and appends it again, so `order` is `[a, a]` and I2 does not hold. -/
theorem I2_fails_after_LoadAndDeleteFirst :
    ∃ m : Map String Int,
      (Map.zero : Map String Int).run [.Store "a" 1, .LoadAndDeleteFirst, .Store "a" 2] = some m ∧
      m.order = ["a", "a"] ∧ ¬ I2 m := by
  refine ⟨_, rfl, rfl, ?_⟩
  unfold I2
  decide

/-! ## Further auxiliary lemmas -/

section MoreLemmas
variable {K V : Type}

theorem sliceIndex_of_nonneg (s : List K) (n : Int) (h : 0 ≤ n) :
    sliceIndex s n = s[n.toNat]? := by
  obtain ⟨k, rfl⟩ := Int.eq_ofNat_of_zero_le h
  simpa using sliceIndex_natCast s k

theorem sliceSet_natCast (s : List K) (i : Nat) (x : K) (h : i < s.length) :
    sliceSet s (i : Int) x = some (s.set i x) := by
  simp [sliceSet, h]

theorem I1_entry_of_getElem? [DecidableEq K] (m : Map K V) (h1 : I1 m) (p : Nat)
    (k : K) (hk : m.order[p]? = some k) : ∃ v : V, m.entries k = some v :=
  Option.isSome_iff_exists.1 ((h1 k).1 (List.getElem?_mem hk))

/-- `store` always returns: the entries updated at `key`, and `key` appended to
`order` exactly when it had no entry. -/
theorem store_eq [DecidableEq K] [Inhabited V] (m : Map K V) (k : K) (v : V) :
    m.store k v = some ⟨if (m.entries k).isSome = true then m.order else m.order ++ [k],
      some (Function.update m.entries k (some v))⟩ := by
  obtain ⟨order, dirty⟩ := m
  cases dirty with
  | none =>
    simp [Map.store, Map.entries, mapLookup, mapGet, mapMake, mapSet]
    funext x
    simp [Function.update_apply, mapLookup]
  | some f =>
    simp only [Map.store, Map.entries, mapLookup, mapGet, mapSet]
    cases f k <;> simp <;> rfl

/-- The tuple assignment of `Swap` on in-range positions. -/
theorem swap_eq_set (x : List K) (i j : Nat) (hi : i < x.length) (hj : j < x.length) :
    sliceSwap x (i : Int) (j : Int) = some ((x.set i x[j]).set j x[i]) := by
  unfold sliceSwap
  rw [sliceIndex_natCast, sliceIndex_natCast, List.getElem?_eq_getElem hi,
    List.getElem?_eq_getElem hj]
  simp [sliceSet, hi, hj]

theorem set_set_self (x : List K) (i : Nat) (hi : i < x.length) :
    (x.set i x[i]).set i x[i] = x := by
  rw [List.set_set]
  apply List.ext_getElem?
  intro p
  rw [List.getElem?_set]
  by_cases hp : i = p
  · subst hp
    simp [hi]
  · simp [hp]

end MoreLemmas

theorem Swap_eq {K V : Type} (m : Map K V) (i j : Nat) (hi : i < m.order.length)
    (hj : j < m.order.length) :
    m.Swap (i : Int) (j : Int) = some ⟨(m.order.set i m.order[j]).set j m.order[i], m.dirty⟩ := by
  have hc : ¬ ((i : Int) < 0 ∨ (i : Int) ≥ (m.order.length : Int) ∨ (j : Int) < 0 ∨
      (j : Int) ≥ (m.order.length : Int)) := by omega
  unfold Map.Swap
  rw [if_neg hc, sliceIndex_natCast, sliceIndex_natCast, List.getElem?_eq_getElem hi,
    List.getElem?_eq_getElem hj]
  simp [sliceSet, hi, hj]


/-- `Index` at a position counted from the front. -/
theorem Index_front {K V : Type} [Inhabited K] [Inhabited V] (m : Map K V) (p : Nat) (k : K)
    (hk : m.order[p]? = some k) :
    m.Index (p : Int) = some ((k, (mapGet m.dirty k).1, (mapGet m.dirty k).2), m) := by
  have hp : p < m.order.length := by
    by_contra hge
    rw [List.getElem?_eq_none (Nat.le_of_not_lt hge)] at hk
    exact Option.noConfusion hk
  have h0 : (p : Int) ≥ 0 := by omega
  have hlen : ¬ (m.order.length : Int) ≤ (p : Int) := by omega
  unfold Map.Index
  rw [if_pos h0, if_neg hlen, sliceIndex_natCast, hk]
  rfl

/-- `Index` at a position counted from the end. -/
theorem Index_back {K V : Type} [Inhabited K] [Inhabited V] (m : Map K V) (p : Nat) (k : K)
    (hk : m.order[p]? = some k) :
    m.Index ((p : Int) - (m.order.length : Int))
      = some ((k, (mapGet m.dirty k).1, (mapGet m.dirty k).2), m) := by
  have hp : p < m.order.length := by
    by_contra hge
    rw [List.getElem?_eq_none (Nat.le_of_not_lt hge)] at hk
    exact Option.noConfusion hk
  have h0 : ¬ ((p : Int) - (m.order.length : Int) ≥ 0) := by omega
  have hlen : ¬ ((p : Int) - (m.order.length : Int) < -(m.order.length : Int)) := by omega
  have hidx : (m.order.length : Int) + ((p : Int) - (m.order.length : Int)) = (p : Int) := by
    omega
  unfold Map.Index
  rw [if_neg h0, if_neg hlen, hidx, sliceIndex_natCast, hk]
  rfl

/-- C11: `LoadOrStore(k, v)` on any state.  If `k` has the value `u` it returns
`(u, true)` and the state is unchanged.  If `k` has no entry it returns `(v, false)`
and the state is the one `Store(k, v)` returns, with `k` appended to `order` and the
entries updated at `k`; on that state every further `LoadOrStore(k, w)` returns
`(v, true)`, changes nothing, and `k` still has the value `v`. -/
theorem LoadOrStore_post {K V : Type} [DecidableEq K] [Inhabited V] (m : Map K V) (k : K)
    (v : V) :
    (∀ u : V, m.entries k = some u → m.LoadOrStore k v = some ((u, true), m)) ∧
    (m.entries k = none → ∃ m1 : Map K V, m.Store k v = some m1 ∧
      m.LoadOrStore k v = some ((v, false), m1) ∧
      m1.order = m.order ++ [k] ∧ m1.entries = Function.update m.entries k (some v) ∧
      ∀ w : V, m1.LoadOrStore k w = some ((v, true), m1) ∧ m1.entries k = some v) := by
  have hpresent : ∀ (m0 : Map K V) (u w : V), m0.entries k = some u →
      m0.LoadOrStore k w = some ((u, true), m0) := by
    intro m0 u w hu
    simp [Map.LoadOrStore, Map.load, mapGet_of_lookup_some m0.dirty k u hu]
  refine ⟨fun u hu => hpresent m u v hu, ?_⟩
  intro hk
  have hst := store_eq m k v
  rw [hk] at hst
  have hent1 : (⟨m.order ++ [k], some (Function.update m.entries k (some v))⟩ : Map K V).entries k
      = some v := by
    simp [Map.entries, mapLookup]
  refine ⟨_, hst, ?_, rfl, rfl, fun w => ⟨hpresent _ v w hent1, hent1⟩⟩
  simp only [Map.LoadOrStore, Map.load, mapGet_of_lookup_none m.dirty k hk, hst]
  rfl

/-- C12: `Load(k)` on any state, the zero map included, returns `(v, true)` when `k`
has the value `v` and `(zero, false)` when it has no entry, and returns the state
unchanged. -/
theorem Load_spec {K V : Type} [Inhabited V] (m : Map K V) (k : K) :
    m.Load k = some (((m.entries k).getD default, (m.entries k).isSome), m) := by
  unfold Map.Load Map.load mapGet Map.entries
  cases mapLookup m.dirty k <;> rfl

/-- C13: on a state satisfying I1, for `0 ≤ n < len(order)`, `Index(n)` returns
`(order[n], v, true)` with `v` the value stored for `order[n]`, and the state is
unchanged. -/
theorem Index_in_range {K V : Type} [DecidableEq K] [Inhabited K] [Inhabited V] (m : Map K V)
    (n : Int) (h1 : I1 m) (h0 : 0 ≤ n) (hn : n < (m.order.length : Int)) :
    ∃ (k : K) (v : V), m.order[n.toNat]? = some k ∧ m.entries k = some v ∧
      m.Index n = some ((k, v, true), m) := by
  obtain ⟨p, rfl⟩ := Int.eq_ofNat_of_zero_le h0
  have hp : p < m.order.length := by omega
  have hk : m.order[p]? = some m.order[p] := List.getElem?_eq_getElem hp
  obtain ⟨v, hv⟩ := I1_entry_of_getElem? m h1 p _ hk
  refine ⟨m.order[p], v, by simp, hv, ?_⟩
  have := Index_front m p _ hk
  rw [mapGet_of_lookup_some m.dirty _ v hv] at this
  exact this

/-- C14: on a state satisfying I1 with `L = len(order)`, for `0 ≤ n < L`,
`Index(n - L)` returns what `Index(n)` returns, namely `(order[n], v, true)` with
`v` the value stored for `order[n]`. -/
theorem Index_symmetry {K V : Type} [DecidableEq K] [Inhabited K] [Inhabited V] (m : Map K V)
    (n : Int) (h1 : I1 m) (h0 : 0 ≤ n) (hn : n < (m.order.length : Int)) :
    m.Index (n - (m.order.length : Int)) = m.Index n ∧
    ∃ (k : K) (v : V), m.order[n.toNat]? = some k ∧ m.entries k = some v ∧
      m.Index (n - (m.order.length : Int)) = some ((k, v, true), m) := by
  obtain ⟨p, rfl⟩ := Int.eq_ofNat_of_zero_le h0
  have hp : p < m.order.length := by omega
  have hk : m.order[p]? = some m.order[p] := List.getElem?_eq_getElem hp
  obtain ⟨v, hv⟩ := I1_entry_of_getElem? m h1 p _ hk
  have hb := Index_back m p _ hk
  have hf := Index_front m p _ hk
  refine ⟨by rw [hb, hf], m.order[p], v, by simp, hv, ?_⟩
  rw [mapGet_of_lookup_some m.dirty _ v hv] at hb
  exact hb

/-- C15: on any state with `L = len(order)`, for `n ≥ L` or `n < -L`, `Index(n)`
returns `(zero, zero, false)` and the state unchanged. -/
theorem Index_out_of_range {K V : Type} [Inhabited K] [Inhabited V] (m : Map K V) (n : Int)
    (h : (m.order.length : Int) ≤ n ∨ n < -(m.order.length : Int)) :
    m.Index n = some ((default, default, false), m) := by
  unfold Map.Index
  by_cases h0 : n ≥ 0
  · have hle : (m.order.length : Int) ≤ n := by omega
    rw [if_pos h0, if_pos hle]
  · have hlt : n < -(m.order.length : Int) := by omega
    rw [if_neg h0, if_pos hlt]


theorem sliceIndex_some_range {K : Type} (x : List K) (i : Int) (a : K)
    (h : sliceIndex x i = some a) : 0 ≤ i ∧ i < (x.length : Int) := by
  unfold sliceIndex at h
  by_contra hc
  rw [if_neg hc] at h
  exact Option.noConfusion h

/-- C16: on a state satisfying I1 and I2, `Len()` returns the number of keys that
have an entry, which are the keys for which `Load` reports `true`, and the state is
unchanged. -/
theorem Len_eq_key_count {K V : Type} [DecidableEq K] [Inhabited V] (m : Map K V)
    (h1 : I1 m) (h2 : I2 m) :
    m.Len = some ((Set.ncard {k : K | (m.entries k).isSome = true} : Int), m) ∧
    {k : K | (m.entries k).isSome = true} = {k : K | ∃ v : V, m.Load k = some ((v, true), m)} := by
  constructor
  · have hset : {k : K | (m.entries k).isSome = true} = (↑m.order.toFinset : Set K) := by
      ext k
      simp [(h1 k)]
    rw [hset, Set.ncard_coe_Finset, List.toFinset_card_of_nodup h2]
    rfl
  · ext k
    simp only [Set.mem_setOf_eq, Map.Load, Map.load, Map.entries, mapGet]
    cases mapLookup m.dirty k <;> simp

/-- C17: on any state, for `0 ≤ i, j < len(order)`, `Swap(i, j)` returns a state
with the same `dirty`, an `order` of the same length holding at `i` the old key at
`j`, at `j` the old key at `i`, and at every other position its old key. -/
theorem Swap_in_range {K V : Type} (m : Map K V) (i j : Int)
    (hi0 : 0 ≤ i) (hi : i < (m.order.length : Int))
    (hj0 : 0 ≤ j) (hj : j < (m.order.length : Int)) :
    ∃ m1 : Map K V, m.Swap i j = some m1 ∧ m1.dirty = m.dirty ∧
      m1.order.length = m.order.length ∧
      m1.order[i.toNat]? = m.order[j.toNat]? ∧ m1.order[j.toNat]? = m.order[i.toNat]? ∧
      ∀ p : Nat, p ≠ i.toNat → p ≠ j.toNat → m1.order[p]? = m.order[p]? := by
  obtain ⟨a, rfl⟩ := Int.eq_ofNat_of_zero_le hi0
  obtain ⟨b, rfl⟩ := Int.eq_ofNat_of_zero_le hj0
  have ha : a < m.order.length := by omega
  have hb : b < m.order.length := by omega
  refine ⟨_, Swap_eq m a b ha hb, rfl, by simp, ?_, ?_, ?_⟩
  · simp only [Int.toNat_ofNat]
    rw [List.getElem?_set, List.getElem?_set]
    by_cases hab : b = a
    · subst hab
      simp [ha]
    · have hab2 : a ≠ b := fun h => hab h.symm
      simp [hab, ha, hb, hab2]
  · simp only [Int.toNat_ofNat]
    rw [List.getElem?_set]
    simp [ha, hb]
  · intro p hpa hpb
    simp only [Int.toNat_ofNat] at hpa hpb
    rw [List.getElem?_set_ne (fun h => hpb h.symm), List.getElem?_set_ne (fun h => hpa h.symm)]

/-- C18: on any state, `Swap(i, j)` returns the state unchanged when `i` or `j` is
outside `[0, len(order))` (a negative index is not counted from the end) and when
`i = j`. -/
theorem Swap_noop {K V : Type} (m : Map K V) (i j : Int)
    (h : i < 0 ∨ (m.order.length : Int) ≤ i ∨ j < 0 ∨ (m.order.length : Int) ≤ j ∨ i = j) :
    m.Swap i j = some m := by
  by_cases hc : i < 0 ∨ i ≥ (m.order.length : Int) ∨ j < 0 ∨ j ≥ (m.order.length : Int)
  · unfold Map.Swap
    rw [if_pos hc]
  · have hij : i = j := by omega
    subst hij
    have hi0 : 0 ≤ i := by omega
    obtain ⟨a, rfl⟩ := Int.eq_ofNat_of_zero_le hi0
    have ha : a < m.order.length := by omega
    rw [Swap_eq m a a ha ha, set_set_self m.order a ha]

/-- C19: on any `SortMap` state and for all integers `i`, `j`, `Less(i, j)` returns
a boolean and the unchanged state; the boolean is `true` exactly when `i` and `j`
are both in `[0, len(order))` and `order[i] < order[j]`. -/
theorem Less_spec {K V : Type} [LT K] [∀ a b : K, Decidable (a < b)] (s : SortMap K V)
    (i j : Int) :
    ∃ b : Bool, s.Less i j = some (b, s) ∧
      (b = true ↔ (0 ≤ i ∧ i < (s.order.length : Int) ∧ 0 ≤ j ∧ j < (s.order.length : Int) ∧
        ∃ x y : K, s.order[i.toNat]? = some x ∧ s.order[j.toNat]? = some y ∧ x < y)) := by
  by_cases hc : i < 0 ∨ i ≥ (s.order.length : Int) ∨ j < 0 ∨ j ≥ (s.order.length : Int)
  · refine ⟨false, ?_, ?_⟩
    · unfold SortMap.Less
      rw [if_pos hc]
    · constructor
      · intro h
        exact Bool.noConfusion h
      · rintro ⟨h1, h2, h3, h4, _⟩
        omega
  · have hi0 : 0 ≤ i := by omega
    have hj0 : 0 ≤ j := by omega
    obtain ⟨a, rfl⟩ := Int.eq_ofNat_of_zero_le hi0
    obtain ⟨c, rfl⟩ := Int.eq_ofNat_of_zero_le hj0
    have ha : a < s.order.length := by omega
    have hb : c < s.order.length := by omega
    refine ⟨decide (s.order[a] < s.order[c]), ?_, ?_⟩
    · unfold SortMap.Less
      rw [if_neg hc, sliceIndex_natCast, sliceIndex_natCast, List.getElem?_eq_getElem ha,
        List.getElem?_eq_getElem hb]
      rfl
    · simp only [decide_eq_true_eq, Int.toNat_ofNat, List.getElem?_eq_getElem ha,
        List.getElem?_eq_getElem hb]
      constructor
      · intro h
        exact ⟨hi0, by omega, hj0, by omega, _, _, rfl, rfl, h⟩
      · rintro ⟨_, _, _, _, x, y, hx, hy, hlt⟩
        cases hx
        cases hy
        exact hlt

theorem Less_of_sliceLess {K V : Type} [LT K] [∀ a b : K, Decidable (a < b)] (s : SortMap K V)
    (i j : Int) (b : Bool) (h : sliceLess s.order i j = some b) :
    s.Less i j = some (b, s) := by
  unfold sliceLess at h
  cases hx : sliceIndex s.order i with
  | none => rw [hx] at h; exact Option.noConfusion h
  | some x =>
    cases hy : sliceIndex s.order j with
    | none => rw [hx, hy] at h; exact Option.noConfusion h
    | some y =>
      rw [hx, hy] at h
      have hi := sliceIndex_some_range _ _ _ hx
      have hj := sliceIndex_some_range _ _ _ hy
      have hc : ¬ (i < 0 ∨ i ≥ (s.order.length : Int) ∨ j < 0 ∨ j ≥ (s.order.length : Int)) := by
        omega
      unfold SortMap.Less
      rw [if_neg hc, hx, hy]
      simp only [Option.bind_eq_bind, Option.some_bind, Option.some.injEq] at h ⊢
      rw [h]

theorem Swap_of_sliceSwap {K V : Type} (s : SortMap K V) (i j : Int) (x1 : List K)
    (h : sliceSwap s.order i j = some x1) :
    s.Swap i j = some ⟨⟨x1, s.dirty⟩⟩ := by
  unfold sliceSwap at h
  cases hy : sliceIndex s.order j with
  | none => rw [hy] at h; exact Option.noConfusion h
  | some y =>
    cases hx : sliceIndex s.order i with
    | none => rw [hy, hx] at h; exact Option.noConfusion h
    | some x =>
      have hi := sliceIndex_some_range _ _ _ hx
      have hj := sliceIndex_some_range _ _ _ hy
      obtain ⟨a, rfl⟩ := Int.eq_ofNat_of_zero_le hi.1
      obtain ⟨c, rfl⟩ := Int.eq_ofNat_of_zero_le hj.1
      have ha : a < s.order.length := by omega
      have hc : c < s.order.length := by omega
      have hsw := swap_eq_set s.order a c ha hc
      unfold sliceSwap at hsw
      rw [hsw] at h
      cases h
      unfold SortMap.Swap
      rw [Swap_eq s.toMap a c ha hc]

/-- A client that ends normally on the plain slice `s.order` ends normally on `s`,
with the same final sequence as `order` and with `dirty` untouched. -/
theorem run_of_runSlice {K V : Type} [LT K] [∀ a b : K, Decidable (a < b)] (d : Driver) :
    ∀ (s : SortMap K V) (x : List K), d.runSlice s.order = some x →
      d.run s = some ⟨⟨x, s.dirty⟩⟩ := by
  induction d with
  | done =>
    intro s x h
    simp only [Driver.runSlice, Option.some.injEq] at h
    subst h
    rfl
  | len k ih =>
    intro s x h
    simp only [Driver.runSlice] at h
    simp only [Driver.run, SortMap.Len, Map.Len]
    exact ih _ s x h
  | less i j k ih =>
    intro s x h
    simp only [Driver.runSlice] at h
    cases hb : sliceLess s.order i j with
    | none => rw [hb] at h; exact Option.noConfusion h
    | some b =>
      rw [hb] at h
      simp only [Driver.run, Less_of_sliceLess s i j b hb]
      exact ih b s x h
  | swap i j k ih =>
    intro s x h
    simp only [Driver.runSlice] at h
    cases hx1 : sliceSwap s.order i j with
    | none => rw [hx1] at h; exact Option.noConfusion h
    | some x1 =>
      rw [hx1] at h
      simp only [Driver.run, Swap_of_sliceSwap s i j x1 hx1]
      exact ih ⟨⟨x1, s.dirty⟩⟩ x h


/-! ## Instances -/

/-- Instance of `LoadOrStore_post`: on `[a, b]`, the present key `a` and the absent
key `c`. -/
theorem LoadOrStore_post_witness :
    exAB.entries "a" = some 1 ∧ exAB.entries "c" = none ∧
    exAB.LoadOrStore "a" 7 = some ((1, true), exAB) ∧
    ∃ m1 : Map String Int, exAB.Store "c" 7 = some m1 ∧
      exAB.LoadOrStore "c" 7 = some ((7, false), m1) ∧
      m1.order = exAB.order ++ ["c"] ∧
      m1.entries = Function.update exAB.entries "c" (some 7) ∧
      ∀ w : Int, m1.LoadOrStore "c" w = some ((7, true), m1) ∧ m1.entries "c" = some 7 :=
  ⟨by decide, by decide, (LoadOrStore_post exAB "a" 7).1 1 (by decide),
    (LoadOrStore_post exAB "c" 7).2 (by decide)⟩

/-- Instance of `Index_in_range`: position 1 of `[a, b]`. -/
theorem Index_in_range_witness :
    I1 exAB ∧ ∃ (k : String) (v : Int), exAB.order[(1 : Int).toNat]? = some k ∧
      exAB.entries k = some v ∧ exAB.Index 1 = some ((k, v, true), exAB) :=
  ⟨exAB_I1, Index_in_range exAB 1 exAB_I1 (by decide) (by decide)⟩

/-- Instance of `Index_symmetry`: `Index(-1)` on `[a, b]` is the entry at position 1. -/
theorem Index_symmetry_witness :
    I1 exAB ∧ exAB.Index (1 - (exAB.order.length : Int)) = exAB.Index 1 ∧
    ∃ (k : String) (v : Int), exAB.order[(1 : Int).toNat]? = some k ∧
      exAB.entries k = some v ∧
      exAB.Index (1 - (exAB.order.length : Int)) = some ((k, v, true), exAB) :=
  ⟨exAB_I1, Index_symmetry exAB 1 exAB_I1 (by decide) (by decide)⟩

/-- Instance of `Index_out_of_range`: `Index(2)` and `Index(-3)` on `[a, b]`, and
`Index(0)` on the zero map. -/
theorem Index_out_of_range_witness :
    exAB.Index 2 = some (("", 0, false), exAB) ∧
    exAB.Index (-3) = some (("", 0, false), exAB) ∧
    (Map.zero : Map String Int).Index 0 = some (("", 0, false), Map.zero) :=
  ⟨Index_out_of_range exAB 2 (by decide), Index_out_of_range exAB (-3) (by decide),
    Index_out_of_range Map.zero 0 (by decide)⟩

/-- Instance of `Len_eq_key_count`: the state `[a, b]`. -/
theorem Len_eq_key_count_witness :
    I1 exAB ∧ I2 exAB ∧
    exAB.Len = some ((Set.ncard {k : String | (exAB.entries k).isSome = true} : Int), exAB) ∧
    {k : String | (exAB.entries k).isSome = true}
      = {k : String | ∃ v : Int, exAB.Load k = some ((v, true), exAB)} :=
  ⟨exAB_I1, exAB_I2, Len_eq_key_count exAB exAB_I1 exAB_I2⟩

/-- Instance of `Swap_in_range`: `Swap(0, 1)` on `[a, b]`. -/
theorem Swap_in_range_witness :
    ∃ m1 : Map String Int, exAB.Swap 0 1 = some m1 ∧ m1.dirty = exAB.dirty ∧
      m1.order.length = exAB.order.length ∧
      m1.order[(0 : Int).toNat]? = exAB.order[(1 : Int).toNat]? ∧
      m1.order[(1 : Int).toNat]? = exAB.order[(0 : Int).toNat]? ∧
      ∀ p : Nat, p ≠ (0 : Int).toNat → p ≠ (1 : Int).toNat → m1.order[p]? = exAB.order[p]? :=
  Swap_in_range exAB 0 1 (by decide) (by decide) (by decide) (by decide)

/-- Instance of `Swap_noop`: `Swap(5, 6)`, `Swap(-1, 1)` and `Swap(1, 1)` on `[a, b]`. -/
theorem Swap_noop_witness :
    exAB.Swap 5 6 = some exAB ∧ exAB.Swap (-1) 1 = some exAB ∧ exAB.Swap 1 1 = some exAB :=
  ⟨Swap_noop exAB 5 6 (by decide), Swap_noop exAB (-1) 1 (by decide),
    Swap_noop exAB 1 1 (by decide)⟩

/-! ## Insertion sort on a plain slice -/

section InsertionSort
variable {K : Type}

theorem sliceIndex_append_length (L R : List K) (c : K) :
    sliceIndex (L ++ c :: R) (L.length : Int) = some c := by
  rw [sliceIndex_natCast]
  induction L with
  | nil => simp
  | cons a L ih => simpa using ih

theorem sliceIndex_append_length_succ (L R : List K) (q c : K) :
    sliceIndex (L ++ q :: c :: R) ((L.length : Int) + 1) = some c := by
  have h : ((L.length : Int) + 1) = ((L.length + 1 : Nat) : Int) := by omega
  rw [h, sliceIndex_natCast]
  induction L with
  | nil => simp
  | cons a L ih => simpa using ih

theorem sliceSwap_adjacent (L R : List K) (q c : K) :
    sliceSwap (L ++ q :: c :: R) ((L.length : Int) + 1) (L.length : Int)
      = some (L ++ c :: q :: R) := by
  unfold sliceSwap
  rw [sliceIndex_append_length, sliceIndex_append_length_succ]
  have h : ((L.length : Int) + 1) = ((L.length + 1 : Nat) : Int) := by omega
  rw [h]
  simp only [Option.bind_eq_bind, Option.some_bind]
  rw [sliceSet_natCast _ _ _ (by simp)]
  simp only [Option.some_bind]
  rw [sliceSet_natCast _ _ _ (by simp)]
  congr 1
  induction L with
  | nil => rfl
  | cons a L ih => simp


theorem sliceLess_adjacent [LT K] [∀ a b : K, Decidable (a < b)] (L R : List K) (q c : K) :
    sliceLess (L ++ q :: c :: R) ((L.length : Int) + 1) (L.length : Int)
      = some (decide (c < q)) := by
  unfold sliceLess
  rw [sliceIndex_append_length, sliceIndex_append_length_succ]
  rfl

/-- The inner loop started at index `j` on `L ++ c :: R`, where `L` has length `j`
and is sorted, moves `c` into `L` and goes on with `next`. -/
theorem insertionInner_runSlice [LinearOrder K] (next : Driver) :
    ∀ (j : Nat) (L R : List K) (c : K), L.length = j → L.Sorted (· ≤ ·) →
      ∃ L1 : List K, L1.Sorted (· ≤ ·) ∧ L1.Perm (c :: L) ∧
        (insertionInner next j).runSlice (L ++ c :: R) = next.runSlice (L1 ++ R) := by
  intro j
  induction j with
  | zero =>
    intro L R c hlen _
    have hL : L = [] := List.length_eq_zero.1 hlen
    subst hL
    exact ⟨[c], List.sorted_singleton c, List.Perm.refl _, rfl⟩
  | succ j ih =>
    intro L R c hlen hsorted
    rcases List.eq_nil_or_concat L with hnil | ⟨L0, q, hL⟩
    · subst hnil
      simp at hlen
    · rw [List.concat_eq_append] at hL
      subst hL
      have hlen0 : L0.length = j := by simpa using hlen
      have hpw := List.pairwise_append.1 hsorted
      have hx : L0 ++ [q] ++ c :: R = L0 ++ q :: c :: R := by simp
      rw [hx]
      subst hlen0
      simp only [insertionInner, Driver.runSlice, sliceLess_adjacent]
      by_cases hcq : c < q
      · simp only [hcq, decide_True, if_true, Driver.runSlice, sliceSwap_adjacent]
        obtain ⟨L1, hs1, hp1, hrun⟩ := ih L0 (q :: R) c rfl hpw.1
        refine ⟨L1 ++ [q], ?_, ?_, ?_⟩
        · refine List.pairwise_append.2 ⟨hs1, List.sorted_singleton q, ?_⟩
          intro a ha b hb
          have hbq : b = q := by simpa using hb
          subst hbq
          rcases List.mem_cons.1 (hp1.mem_iff.1 ha) with hac | haL
          · subst hac
            exact le_of_lt hcq
          · exact hpw.2.2 a haL b (by simp)
        · calc (L1 ++ [q]).Perm ((c :: L0) ++ [q]) := List.Perm.append_right [q] hp1
            _ = c :: (L0 ++ [q]) := rfl
        · rw [hrun]
          simp
      · simp only [hcq, decide_False, Driver.runSlice]
        refine ⟨L0 ++ [q] ++ [c], ?_, ?_, ?_⟩
        · refine List.pairwise_append.2 ⟨hsorted, List.sorted_singleton c, ?_⟩
          intro a ha b hb
          have hbc : b = c := by simpa using hb
          subst hbc
          have hqb : q ≤ b := le_of_not_lt hcq
          rcases List.mem_append.1 ha with haL | haq
          · exact le_trans (hpw.2.2 a haL q (by simp)) hqb
          · have : a = q := by simpa using haq
            subst this
            exact hqb
        · exact (List.perm_append_singleton c (L0 ++ [q]))
        · simp

/-- The outer loop started at index `i` on `L ++ R`, where `L` has length `i` and is
sorted and `R` has as many keys as iterations are left, ends with a sorted
rearrangement of `L ++ R`. -/
theorem insertionOuter_runSlice [LinearOrder K] :
    ∀ (count i : Nat) (L R : List K), L.length = i → R.length = count → L.Sorted (· ≤ ·) →
      ∃ y : List K, (insertionOuter count i).runSlice (L ++ R) = some y ∧
        y.Sorted (· ≤ ·) ∧ y.Perm (L ++ R) := by
  intro count
  induction count with
  | zero =>
    intro i L R _ hR hs
    have hnil : R = [] := List.length_eq_zero.1 hR
    subst hnil
    exact ⟨L, by simp [insertionOuter, Driver.runSlice], hs, by simp⟩
  | succ count ih =>
    intro i L R hL hR hs
    cases R with
    | nil => simp at hR
    | cons c R1 =>
      have hR1 : R1.length = count := by simpa using hR
      obtain ⟨L1, hs1, hp1, hrun⟩ :=
        insertionInner_runSlice (insertionOuter count (i + 1)) i L R1 c hL hs
      have hL1 : L1.length = i + 1 := by rw [hp1.length_eq]; simp [hL]
      obtain ⟨y, hy, hys, hyp⟩ := ih (i + 1) L1 R1 hL1 hR1 hs1
      refine ⟨y, ?_, hys, ?_⟩
      · simp only [insertionOuter]
        rw [hrun, hy]
      · refine hyp.trans ?_
        calc (L1 ++ R1).Perm ((c :: L) ++ R1) := List.Perm.append_right R1 hp1
          _ = c :: (L ++ R1) := rfl
          _ |>.Perm (L ++ c :: R1) := List.perm_middle.symm

/-- Insertion sort ends normally on every plain slice, with a sorted rearrangement
of it. -/
theorem insertionSort_runSlice [LinearOrder K] (x : List K) :
    ∃ y : List K, insertionSort.runSlice x = some y ∧ y.Sorted (· ≤ ·) ∧ y.Perm x := by
  cases x with
  | nil => exact ⟨[], rfl, List.sorted_nil, List.Perm.refl _⟩
  | cons a R =>
    obtain ⟨y, hy, hys, hyp⟩ :=
      insertionOuter_runSlice R.length 1 [a] R rfl rfl (List.sorted_singleton a)
    refine ⟨y, ?_, hys, hyp⟩
    simp only [insertionSort, Driver.runSlice]
    have hn : ((((a :: R).length : Nat) : Int)).toNat - 1 = R.length := by simp
    rw [hn]
    exact hy

end InsertionSort

/-! ## Sorting through `Len`, `Less` and `Swap` -/

/-- C20: sorting a `SortMap` over a totally ordered key type through `Len`, `Less`
and `Swap`.  Any client of the three methods that ends normally with a sorted
sequence when run on a plain slice holding `order` also ends normally on the map,
with that sorted sequence as `order` and `dirty` untouched; and the insertion sort
of package `sort` is such a client on every state: it ends with `order` sorted, a
rearrangement of the old `order`, and `dirty` untouched. -/
theorem Sort_sorts {K V : Type} [LinearOrder K] (s : SortMap K V) :
    (∀ (d : Driver) (x : List K), d.runSlice s.order = some x → x.Sorted (· ≤ ·) →
      ∃ s1 : SortMap K V, d.run s = some s1 ∧ s1.order = x ∧ s1.order.Sorted (· ≤ ·) ∧
        s1.dirty = s.dirty) ∧
    ∃ s1 : SortMap K V, insertionSort.run s = some s1 ∧ s1.order.Sorted (· ≤ ·) ∧
      s1.order.Perm s.order ∧ s1.dirty = s.dirty := by
  constructor
  · intro d x hrun hsorted
    exact ⟨⟨⟨x, s.dirty⟩⟩, run_of_runSlice d s x hrun, rfl, hsorted, rfl⟩
  · obtain ⟨y, hy, hys, hyp⟩ := insertionSort_runSlice s.order
    exact ⟨⟨⟨y, s.dirty⟩⟩, run_of_runSlice insertionSort s y hy, hys, hyp, rfl⟩

/-- Instance of `Sort_sorts`: insertion sort on the map with `order = [3, 1, 2]`. -/
theorem Sort_sorts_witness :
    insertionSort.runSlice exSort.order = some [1, 2, 3] ∧
    ∃ s1 : SortMap Int String, insertionSort.run exSort = some s1 ∧ s1.order = [1, 2, 3] ∧
      s1.order.Sorted (· ≤ ·) ∧ s1.dirty = exSort.dirty :=
  ⟨by decide, (Sort_sorts exSort).1 insertionSort [1, 2, 3] (by decide) (by decide)⟩

/-! ## The order `Less` tests, and the invariants under each method -/

/-- `Less` on in-range positions compares the keys found there. -/
theorem Less_eq {K V : Type} [LT K] [∀ a b : K, Decidable (a < b)] (s : SortMap K V)
    (a c : Nat) (ha : a < s.order.length) (hc : c < s.order.length) :
    s.Less (a : Int) (c : Int) = some (decide (s.order[a] < s.order[c]), s) := by
  have hcond : ¬ ((a : Int) < 0 ∨ (a : Int) ≥ (s.order.length : Int) ∨ (c : Int) < 0 ∨
      (c : Int) ≥ (s.order.length : Int)) := by omega
  unfold SortMap.Less
  rw [if_neg hcond, sliceIndex_natCast, sliceIndex_natCast, List.getElem?_eq_getElem ha,
    List.getElem?_eq_getElem hc]
  rfl

/-- C21: on a `SortMap` over a totally ordered key type, `Less` on positions in
`[0, len(order))` is a strict weak ordering: `Less(i, i)` is false, `Less(i, j)`
excludes `Less(j, i)`, `Less` is transitive, and being incomparable under `Less` is
transitive. -/
theorem Less_strict_weak {K V : Type} [LinearOrder K] (s : SortMap K V) (i j k : Int)
    (hi0 : 0 ≤ i) (hi : i < (s.order.length : Int))
    (hj0 : 0 ≤ j) (hj : j < (s.order.length : Int))
    (hk0 : 0 ≤ k) (hk : k < (s.order.length : Int)) :
    s.Less i i = some (false, s) ∧
    (s.Less i j = some (true, s) → s.Less j i = some (false, s)) ∧
    (s.Less i j = some (true, s) → s.Less j k = some (true, s) → s.Less i k = some (true, s)) ∧
    (s.Less i j = some (false, s) → s.Less j i = some (false, s) →
      s.Less j k = some (false, s) → s.Less k j = some (false, s) →
      s.Less i k = some (false, s) ∧ s.Less k i = some (false, s)) := by
  obtain ⟨a, rfl⟩ := Int.eq_ofNat_of_zero_le hi0
  obtain ⟨b, rfl⟩ := Int.eq_ofNat_of_zero_le hj0
  obtain ⟨c, rfl⟩ := Int.eq_ofNat_of_zero_le hk0
  have ha : a < s.order.length := by omega
  have hb : b < s.order.length := by omega
  have hc : c < s.order.length := by omega
  simp only [Less_eq s _ _ ha ha, Less_eq s _ _ ha hb, Less_eq s _ _ hb ha, Less_eq s _ _ hb hc,
    Less_eq s _ _ hc hb, Less_eq s _ _ ha hc, Less_eq s _ _ hc ha, Option.some.injEq,
    Prod.mk.injEq, and_true, decide_eq_true_eq, decide_eq_false_iff_not, lt_irrefl,
    not_false_eq_true, not_lt, true_and]
  refine ⟨fun h => le_of_lt h, fun h1 h2 => lt_trans h1 h2, ?_⟩
  intro h1 h2 h3 h4
  exact ⟨le_trans h3 h1, le_trans h2 h4⟩

/-- Instance of `Less_strict_weak`: the map with `order = [3, 1, 2]`. -/
theorem Less_strict_weak_witness :
    exSort.Less 1 1 = some (false, exSort) ∧
    exSort.Less 2 1 = some (false, exSort) ∧
    exSort.Less 1 0 = some (true, exSort) ∧
    (exSort.Less 1 1 = some (false, exSort) ∧ exSort.Less 1 1 = some (false, exSort)) :=
  ⟨(Less_strict_weak exSort 1 2 0 (by decide) (by decide) (by decide) (by decide) (by decide)
      (by decide)).1,
    (Less_strict_weak exSort 1 2 0 (by decide) (by decide) (by decide) (by decide) (by decide)
      (by decide)).2.1 rfl,
    (Less_strict_weak exSort 1 2 0 (by decide) (by decide) (by decide) (by decide) (by decide)
      (by decide)).2.2.1 rfl rfl,
    (Less_strict_weak exSort 1 1 1 (by decide) (by decide) (by decide) (by decide) (by decide)
      (by decide)).2.2.2 rfl rfl rfl rfl⟩


section InvLemmas
variable {K V : Type}

/-- `StoreFirst` always returns: the entries updated at `key`, and `key` put in front
of `order` exactly when it had no entry. -/
theorem StoreFirst_eq [DecidableEq K] [Inhabited V] (m : Map K V) (k : K) (v : V) :
    m.StoreFirst k v = some ⟨if (m.entries k).isSome = true then m.order else k :: m.order,
      some (Function.update m.entries k (some v))⟩ := by
  obtain ⟨order, dirty⟩ := m
  cases dirty with
  | none =>
    simp [Map.StoreFirst, Map.entries, mapLookup, mapGet, mapMake, mapSet]
    funext x
    simp [Function.update_apply, mapLookup]
  | some f =>
    simp only [Map.StoreFirst, Map.entries, mapLookup, mapGet, mapSet]
    cases f k <;> simp <;> rfl

/-- `LoadOrStore` always returns: the state is the old one when `key` has an entry
and the one `store` returns otherwise. -/
theorem LoadOrStore_eq [DecidableEq K] [Inhabited V] (m : Map K V) (k : K) (v : V) :
    m.LoadOrStore k v = some (match m.entries k with
      | some u => ((u, true), m)
      | none => ((v, false), ⟨m.order ++ [k], some (Function.update m.entries k (some v))⟩)) := by
  cases hk : m.entries k with
  | some u =>
    simp [Map.LoadOrStore, Map.load, mapGet_of_lookup_some m.dirty k u hk]
  | none =>
    have hst := store_eq m k v
    rw [hk] at hst
    simp only [Map.LoadOrStore, Map.load, mapGet_of_lookup_none m.dirty k hk, hst]
    rfl

theorem cons_set_perm (a : K) : ∀ (t : List K) (n : Nat) (b : K), t[n]? = some b →
    (b :: t.set n a).Perm (a :: t) := by
  intro t
  induction t with
  | nil => intro n b h; simp at h
  | cons c u ih =>
    intro n b h
    cases n with
    | zero =>
      simp only [List.getElem?_cons_zero, Option.some.injEq] at h
      subst h
      exact List.Perm.swap _ _ _
    | succ n =>
      simp only [List.getElem?_cons_succ] at h
      have h1 := ih n b h
      simp only [List.set_cons_succ]
      exact (List.Perm.swap c b _).trans ((h1.cons c).trans (List.Perm.swap a c u))

/-- Exchanging the keys at two positions rearranges the sequence. -/
theorem set_set_perm : ∀ (x : List K) (i j : Nat) (a b : K), x[i]? = some a → x[j]? = some b →
    ((x.set i b).set j a).Perm x := by
  intro x
  induction x with
  | nil => intro i j a b h; simp at h
  | cons c t ih =>
    intro i j a b hi hj
    cases i with
    | zero =>
      simp only [List.getElem?_cons_zero, Option.some.injEq] at hi
      subst hi
      cases j with
      | zero =>
        simp only [List.getElem?_cons_zero, Option.some.injEq] at hj
        subst hj
        simp
      | succ j =>
        simp only [List.getElem?_cons_succ] at hj
        simpa using cons_set_perm c t j b hj
    | succ i =>
      simp only [List.getElem?_cons_succ] at hi
      cases j with
      | zero =>
        simp only [List.getElem?_cons_zero, Option.some.injEq] at hj
        subst hj
        simpa using cons_set_perm c t i a hi
      | succ j =>
        simp only [List.getElem?_cons_succ] at hj
        simpa using ih i j a b hi hj

end InvLemmas

section InvLemmas2
variable {K V : Type}

theorem entries_mk (order : List K) (f : K → Option V) :
    (⟨order, some f⟩ : Map K V).entries = f := rfl

theorem inv_append [DecidableEq K] (m : Map K V) (k : K) (v : V) (h1 : I1 m) (h2 : I2 m) :
    I1 (⟨if (m.entries k).isSome = true then m.order else m.order ++ [k],
        some (Function.update m.entries k (some v))⟩ : Map K V) ∧
    I2 (⟨if (m.entries k).isSome = true then m.order else m.order ++ [k],
        some (Function.update m.entries k (some v))⟩ : Map K V) := by
  by_cases hk : (m.entries k).isSome = true
  · rw [if_pos hk]
    refine ⟨?_, h2⟩
    intro x
    rw [entries_mk]
    by_cases hx : x = k
    · subst hx
      simp [(h1 x).2 hk]
    · simp [Function.update_apply, hx, h1 x]
  · rw [if_neg hk]
    have hnot : k ∉ m.order := fun hmem => hk ((h1 k).1 hmem)
    constructor
    · intro x
      rw [entries_mk]
      by_cases hx : x = k
      · subst hx
        simp
      · simp [Function.update_apply, hx, h1 x]
    · show (m.order ++ [k]).Nodup
      exact List.Nodup.append h2 (List.nodup_singleton k) (by simpa using hnot)

theorem inv_cons [DecidableEq K] (m : Map K V) (k : K) (v : V) (h1 : I1 m) (h2 : I2 m) :
    I1 (⟨if (m.entries k).isSome = true then m.order else k :: m.order,
        some (Function.update m.entries k (some v))⟩ : Map K V) ∧
    I2 (⟨if (m.entries k).isSome = true then m.order else k :: m.order,
        some (Function.update m.entries k (some v))⟩ : Map K V) := by
  by_cases hk : (m.entries k).isSome = true
  · rw [if_pos hk]
    refine ⟨?_, h2⟩
    intro x
    rw [entries_mk]
    by_cases hx : x = k
    · subst hx
      simp [(h1 x).2 hk]
    · simp [Function.update_apply, hx, h1 x]
  · rw [if_neg hk]
    have hnot : k ∉ m.order := fun hmem => hk ((h1 k).1 hmem)
    constructor
    · intro x
      rw [entries_mk]
      by_cases hx : x = k
      · subst hx
        simp
      · simp [Function.update_apply, hx, h1 x]
    · show (k :: m.order).Nodup
      exact List.nodup_cons.2 ⟨hnot, h2⟩

theorem inv_erase [DecidableEq K] (m : Map K V) (k : K) (h1 : I1 m) (h2 : I2 m) :
    I1 (⟨m.order.erase k, mapDelete m.dirty k⟩ : Map K V) ∧
    I2 (⟨m.order.erase k, mapDelete m.dirty k⟩ : Map K V) := by
  constructor
  · intro x
    show x ∈ m.order.erase k ↔ (mapLookup (mapDelete m.dirty k) x).isSome = true
    rw [mapLookup_delete, List.Nodup.mem_erase_iff h2]
    by_cases hx : x = k
    · subst hx
      simp
    · have := h1 x
      simp only [Map.entries] at this
      simp [Function.update_apply, hx, this]
  · exact List.Nodup.erase k h2

theorem inv_perm (m : Map K V) (order : List K) (hp : order.Perm m.order) (h1 : I1 m)
    (h2 : I2 m) : I1 (⟨order, m.dirty⟩ : Map K V) ∧ I2 (⟨order, m.dirty⟩ : Map K V) := by
  constructor
  · intro x
    show x ∈ order ↔ (mapLookup m.dirty x).isSome = true
    rw [hp.mem_iff]
    exact h1 x
  · exact hp.nodup_iff.2 h2

/-- `Swap` always returns; `dirty` is kept and `order` is rearranged. -/
theorem Swap_perm (m : Map K V) (i j : Int) :
    ∃ order : List K, m.Swap i j = some ⟨order, m.dirty⟩ ∧ order.Perm m.order := by
  by_cases hc : i < 0 ∨ i ≥ (m.order.length : Int) ∨ j < 0 ∨ j ≥ (m.order.length : Int)
  · refine ⟨m.order, ?_, List.Perm.refl _⟩
    unfold Map.Swap
    rw [if_pos hc]
  · have hi0 : 0 ≤ i := by omega
    have hj0 : 0 ≤ j := by omega
    obtain ⟨a, rfl⟩ := Int.eq_ofNat_of_zero_le hi0
    obtain ⟨b, rfl⟩ := Int.eq_ofNat_of_zero_le hj0
    have ha : a < m.order.length := by omega
    have hb : b < m.order.length := by omega
    exact ⟨_, Swap_eq m a b ha hb,
      set_set_perm m.order a b _ _ (List.getElem?_eq_getElem ha) (List.getElem?_eq_getElem hb)⟩

end InvLemmas2

/-- C28: on a state satisfying I1 and I2, each of `Store`, `StoreFirst`,
`LoadOrStore`, `Delete`, `LoadAndDelete` and `Swap`, with any arguments, returns a
state that satisfies I1 and I2. -/
theorem ops_preserve_invariants {K V : Type} [DecidableEq K] [Inhabited V] (m : Map K V)
    (h1 : I1 m) (h2 : I2 m) :
    (∀ (k : K) (v : V), ∃ m1 : Map K V, m.Store k v = some m1 ∧ I1 m1 ∧ I2 m1) ∧
    (∀ (k : K) (v : V), ∃ m1 : Map K V, m.StoreFirst k v = some m1 ∧ I1 m1 ∧ I2 m1) ∧
    (∀ (k : K) (v : V), ∃ (r : V × Bool) (m1 : Map K V),
      m.LoadOrStore k v = some (r, m1) ∧ I1 m1 ∧ I2 m1) ∧
    (∀ k : K, ∃ m1 : Map K V, m.Delete k = some m1 ∧ I1 m1 ∧ I2 m1) ∧
    (∀ k : K, ∃ (r : V × Bool) (m1 : Map K V),
      m.LoadAndDelete k = some (r, m1) ∧ I1 m1 ∧ I2 m1) ∧
    (∀ i j : Int, ∃ m1 : Map K V, m.Swap i j = some m1 ∧ I1 m1 ∧ I2 m1) := by
  refine ⟨?_, ?_, ?_, ?_, ?_, ?_⟩
  · intro k v
    exact ⟨_, store_eq m k v, inv_append m k v h1 h2⟩
  · intro k v
    exact ⟨_, StoreFirst_eq m k v, inv_cons m k v h1 h2⟩
  · intro k v
    rw [LoadOrStore_eq]
    cases hk : m.entries k with
    | some u => exact ⟨_, _, rfl, h1, h2⟩
    | none =>
      have h := inv_append m k v h1 h2
      rw [hk] at h
      exact ⟨_, _, rfl, h⟩
  · intro k
    exact ⟨_, Delete_eq m k, inv_erase m k h1 h2⟩
  · intro k
    exact ⟨_, _, LoadAndDelete_eq m k, inv_erase m k h1 h2⟩
  · intro i j
    obtain ⟨order, hsw, hp⟩ := Swap_perm m i j
    exact ⟨_, hsw, inv_perm m order hp h1 h2⟩

/-! ## Sequences of stores, normal return, `Load` after a change, sortedness -/

/-- C25: starting from the zero map, every sequence of `Store` and `StoreFirst`
calls returns, and in the state reached `order` holds each key at most once (and I1
holds). -/
theorem stores_no_duplicates {K V : Type} [DecidableEq K] [Inhabited K] [Inhabited V]
    (ops : List (Op K V))
    (hops : ∀ op ∈ ops, ∃ (k : K) (v : V), op = Op.Store k v ∨ op = Op.StoreFirst k v) :
    ∃ m : Map K V, (Map.zero : Map K V).run ops = some m ∧ m.order.Nodup ∧ I1 m := by
  have hgen : ∀ (ops : List (Op K V)) (m0 : Map K V),
      (∀ op ∈ ops, ∃ (k : K) (v : V), op = Op.Store k v ∨ op = Op.StoreFirst k v) →
      I1 m0 → I2 m0 → ∃ m : Map K V, m0.run ops = some m ∧ m.order.Nodup ∧ I1 m := by
    intro ops
    induction ops with
    | nil =>
      intro m0 _ h1 h2
      exact ⟨m0, rfl, h2, h1⟩
    | cons op rest ih =>
      intro m0 hops h1 h2
      obtain ⟨k, v, hop⟩ := hops op (List.mem_cons_self op rest)
      have hrest : ∀ op1 ∈ rest, ∃ (k : K) (v : V), op1 = Op.Store k v ∨ op1 = Op.StoreFirst k v :=
        fun op1 h => hops op1 (List.mem_cons_of_mem op h)
      rcases hop with hop | hop
      · subst hop
        obtain ⟨hi1, hi2⟩ := inv_append m0 k v h1 h2
        obtain ⟨m, hm, hnd, hI⟩ := ih _ hrest hi1 hi2
        refine ⟨m, ?_, hnd, hI⟩
        simp only [Map.run, Op.apply, Map.Store, store_eq m0 k v, Option.some_bind]
        exact hm
      · subst hop
        obtain ⟨hi1, hi2⟩ := inv_cons m0 k v h1 h2
        obtain ⟨m, hm, hnd, hI⟩ := ih _ hrest hi1 hi2
        refine ⟨m, ?_, hnd, hI⟩
        simp only [Map.run, Op.apply, StoreFirst_eq m0 k v, Option.some_bind]
        exact hm
  refine hgen ops Map.zero hops ?_ ?_
  · intro k
    simp [Map.zero, Map.entries, mapLookup]
  · exact List.nodup_nil

/-- Instance of `stores_no_duplicates`: five stores over three keys. -/
theorem stores_no_duplicates_witness :
    ∃ m : Map String Int,
      (Map.zero : Map String Int).run
        [.Store "a" 1, .StoreFirst "b" 2, .Store "a" 3, .StoreFirst "b" 4, .StoreFirst "c" 5]
        = some m ∧ m.order.Nodup ∧ I1 m :=
  stores_no_duplicates _ (by
    intro op hop
    simp only [List.mem_cons, List.mem_singleton, List.not_mem_nil, or_false] at hop
    rcases hop with h | h | h | h | h <;> subst h
    · exact ⟨_, _, Or.inl rfl⟩
    · exact ⟨_, _, Or.inr rfl⟩
    · exact ⟨_, _, Or.inl rfl⟩
    · exact ⟨_, _, Or.inr rfl⟩
    · exact ⟨_, _, Or.inr rfl⟩)

/-- C27: on every state, nil `dirty` and states violating I1 included, and for all
arguments, each of `Store`, `StoreFirst`, `Load`, `LoadOrStore`, `Delete`,
`LoadAndDelete`, `LoadAndDeleteFirst`, `LoadAndDeleteLast`, `Index`, `Len`, `Swap`
and `Less` returns: no index is out of range and no nil map is written. -/
theorem ops_return {K V : Type} [DecidableEq K] [Inhabited K] [Inhabited V] [LT K]
    [∀ a b : K, Decidable (a < b)] (m : Map K V) (k : K) (v : V) (n i j : Int) :
    (m.Store k v).isSome = true ∧ (m.StoreFirst k v).isSome = true ∧
    (m.Load k).isSome = true ∧ (m.LoadOrStore k v).isSome = true ∧
    (m.Delete k).isSome = true ∧ (m.LoadAndDelete k).isSome = true ∧
    m.LoadAndDeleteFirst.isSome = true ∧ m.LoadAndDeleteLast.isSome = true ∧
    (m.Index n).isSome = true ∧ m.Len.isSome = true ∧ (m.Swap i j).isSome = true ∧
    ((⟨m⟩ : SortMap K V).Less i j).isSome = true := by
  refine ⟨?_, ?_, rfl, ?_, ?_, ?_, ?_, ?_, ?_, rfl, ?_, ?_⟩
  · show (m.store k v).isSome = true
    rw [store_eq]; rfl
  · rw [StoreFirst_eq]; rfl
  · rw [LoadOrStore_eq]; rfl
  · rw [Delete_eq]; rfl
  · rw [LoadAndDelete_eq]; rfl
  · unfold Map.LoadAndDeleteFirst
    by_cases h : m.order.length < 1
    · rw [if_pos h]; rfl
    · have h0 : 0 < m.order.length := by omega
      have hidx : sliceIndex m.order 0 = some m.order[0] := by
        have := sliceIndex_natCast m.order 0
        rw [List.getElem?_eq_getElem h0] at this
        simpa using this
      rw [if_neg h, hidx]; rfl
  · unfold Map.LoadAndDeleteLast
    by_cases h : m.order.length < 1
    · rw [if_pos h]; rfl
    · have hlt : m.order.length - 1 < m.order.length := by omega
      have hcast : ((m.order.length : Int) - 1) = ((m.order.length - 1 : Nat) : Int) := by omega
      have hidx : sliceIndex m.order ((m.order.length : Int) - 1)
          = some m.order[m.order.length - 1] := by
        rw [hcast, sliceIndex_natCast, List.getElem?_eq_getElem hlt]
      rw [if_neg h, hidx]; rfl
  · by_cases hout : (m.order.length : Int) ≤ n ∨ n < -(m.order.length : Int)
    · unfold Map.Index
      by_cases h0 : n ≥ 0
      · have hle : (m.order.length : Int) ≤ n := by omega
        rw [if_pos h0, if_pos hle]; rfl
      · have hlt : n < -(m.order.length : Int) := by omega
        rw [if_neg h0, if_pos hlt]; rfl
    · by_cases h0 : 0 ≤ n
      · obtain ⟨p, rfl⟩ := Int.eq_ofNat_of_zero_le h0
        have hp : p < m.order.length := by omega
        rw [Index_front m p _ (List.getElem?_eq_getElem hp)]; rfl
      · have hp0 : 0 ≤ n + (m.order.length : Int) := by omega
        obtain ⟨p, hpe⟩ := Int.eq_ofNat_of_zero_le hp0
        have hp : p < m.order.length := by omega
        have hn : n = (p : Int) - (m.order.length : Int) := by omega
        rw [hn, Index_back m p _ (List.getElem?_eq_getElem hp)]; rfl
  · obtain ⟨order, hsw, _⟩ := Swap_perm m i j
    rw [hsw]; rfl
  · by_cases hc : i < 0 ∨ i ≥ (m.order.length : Int) ∨ j < 0 ∨ j ≥ (m.order.length : Int)
    · unfold SortMap.Less
      rw [if_pos hc]; rfl
    · have hi0 : 0 ≤ i := by omega
      have hj0 : 0 ≤ j := by omega
      obtain ⟨a, rfl⟩ := Int.eq_ofNat_of_zero_le hi0
      obtain ⟨c, rfl⟩ := Int.eq_ofNat_of_zero_le hj0
      have ha : a < m.order.length := by omega
      have hb : c < m.order.length := by omega
      rw [Less_eq (⟨m⟩ : SortMap K V) a c ha hb]; rfl

/-- C29: on any state, for keys `k1 ≠ k`: after `Store(k, v)` and after
`StoreFirst(k, v)`, `Load(k)` returns `(v, true)` and `Load(k1)` returns what it
returned before; after `Delete(k)`, `Load(k)` returns `(zero, false)` and
`Load(k1)` returns what it returned before. -/
theorem Load_after_store {K V : Type} [DecidableEq K] [Inhabited V] (m : Map K V) (k k1 : K)
    (v : V) (hne : k1 ≠ k) :
    (∃ m1 : Map K V, m.Store k v = some m1 ∧ m1.Load k = some ((v, true), m1) ∧
      ∃ r : V × Bool, m.Load k1 = some (r, m) ∧ m1.Load k1 = some (r, m1)) ∧
    (∃ m1 : Map K V, m.StoreFirst k v = some m1 ∧ m1.Load k = some ((v, true), m1) ∧
      ∃ r : V × Bool, m.Load k1 = some (r, m) ∧ m1.Load k1 = some (r, m1)) ∧
    (∃ m1 : Map K V, m.Delete k = some m1 ∧ m1.Load k = some ((default, false), m1) ∧
      ∃ r : V × Bool, m.Load k1 = some (r, m) ∧ m1.Load k1 = some (r, m1)) := by
  have hupd : ∀ w : Option V,
      mapGet (some (Function.update m.entries k w)) k1 = mapGet m.dirty k1 := by
    intro w
    simp [mapGet, mapLookup, Function.update_apply, hne, Map.entries]
  refine ⟨⟨_, store_eq m k v, ?_, mapGet m.dirty k1, rfl, ?_⟩,
    ⟨_, StoreFirst_eq m k v, ?_, mapGet m.dirty k1, rfl, ?_⟩,
    ⟨_, Delete_eq m k, ?_, mapGet m.dirty k1, rfl, ?_⟩⟩
  · simp [Map.Load, Map.load, mapGet, mapLookup]
  · simp only [Map.Load, Map.load, hupd (some v)]
  · simp [Map.Load, Map.load, mapGet, mapLookup]
  · simp only [Map.Load, Map.load, hupd (some v)]
  · simp [Map.Load, Map.load, mapGet, mapLookup_delete]
  · simp [Map.Load, Map.load, mapGet, mapLookup_delete, Function.update_apply, hne]

/-- Instance of `Load_after_store`: keys `a` and `b` of `[a, b]`. -/
theorem Load_after_store_witness :
    (∃ m1 : Map String Int, exAB.Store "a" 7 = some m1 ∧ m1.Load "a" = some ((7, true), m1) ∧
      ∃ r : Int × Bool, exAB.Load "b" = some (r, exAB) ∧ m1.Load "b" = some (r, m1)) ∧
    (∃ m1 : Map String Int, exAB.StoreFirst "a" 7 = some m1 ∧
      m1.Load "a" = some ((7, true), m1) ∧
      ∃ r : Int × Bool, exAB.Load "b" = some (r, exAB) ∧ m1.Load "b" = some (r, m1)) ∧
    (∃ m1 : Map String Int, exAB.Delete "a" = some m1 ∧
      m1.Load "a" = some ((0, false), m1) ∧
      ∃ r : Int × Bool, exAB.Load "b" = some (r, exAB) ∧ m1.Load "b" = some (r, m1)) :=
  Load_after_store exAB "a" "b" 7 (by decide)

theorem sorted_iff_adjacent {K : Type} [LinearOrder K] (l : List K) :
    l.Sorted (· ≤ ·) ↔
      ∀ (i : Nat) (a b : K), l[i]? = some a → l[i + 1]? = some b → a ≤ b := by
  unfold List.Sorted
  rw [← List.chain'_iff_pairwise]
  induction l with
  | nil => simp
  | cons c t ih =>
    cases t with
    | nil => simp
    | cons d u =>
      rw [List.chain'_cons, ih]
      constructor
      · rintro ⟨hcd, h⟩ i a b ha hb
        cases i with
        | zero =>
          simp only [List.getElem?_cons_zero, Option.some.injEq, zero_add,
            List.getElem?_cons_succ] at ha hb
          subst ha; subst hb
          exact hcd
        | succ i =>
          simp only [List.getElem?_cons_succ] at ha hb
          exact h i a b ha (by simpa using hb)
      · intro h
        refine ⟨h 0 c d (by simp) (by simp), ?_⟩
        intro i a b ha hb
        exact h (i + 1) a b (by simpa using ha) (by simpa using hb)

/-- C30: on a `SortMap` over a totally ordered key type, there is no `i` with
`1 ≤ i < Len()` and `Less(i, i-1)` if and only if `order[i-1] ≤ order[i]` for every
such `i`, that is, if and only if `order` is in non-decreasing order. -/
theorem IsSorted_condition {K V : Type} [LinearOrder K] (s : SortMap K V) :
    ∃ n : Int, s.Len = some (n, s) ∧
      ((∀ i : Int, 1 ≤ i → i < n → s.Less i (i - 1) = some (false, s)) ↔
        (∀ (i : Nat) (a b : K), 1 ≤ i → s.order[i - 1]? = some a → s.order[i]? = some b →
          a ≤ b)) ∧
      ((∀ i : Int, 1 ≤ i → i < n → s.Less i (i - 1) = some (false, s)) ↔
        s.order.Sorted (· ≤ ·)) := by
  have hmain : (∀ i : Int, 1 ≤ i → i < (s.order.length : Int) →
        s.Less i (i - 1) = some (false, s)) ↔
      (∀ (i : Nat) (a b : K), s.order[i]? = some a → s.order[i + 1]? = some b → a ≤ b) := by
    constructor
    · intro h i a b ha hb
      have hlt : i + 1 < s.order.length := by
        by_contra hge
        rw [List.getElem?_eq_none (Nat.le_of_not_lt hge)] at hb
        exact Option.noConfusion hb
      have hi : i < s.order.length := by omega
      have hless := h ((i + 1 : Nat) : Int) (by omega) (by omega)
      have hsub : (((i + 1 : Nat) : Int) - 1) = (i : Int) := by omega
      rw [hsub, Less_eq s (i + 1) i hlt hi] at hless
      rw [List.getElem?_eq_getElem hi] at ha
      rw [List.getElem?_eq_getElem hlt] at hb
      cases ha; cases hb
      simpa using hless
    · intro h i h1 hlt
      have h0 : 0 ≤ i - 1 := by omega
      obtain ⟨p, hp⟩ := Int.eq_ofNat_of_zero_le h0
      have hi : i = ((p + 1 : Nat) : Int) := by omega
      have hp1 : p + 1 < s.order.length := by omega
      have hp0 : p < s.order.length := by omega
      rw [hp, hi, Less_eq s (p + 1) p hp1 hp0]
      have := h p _ _ (List.getElem?_eq_getElem hp0) (List.getElem?_eq_getElem hp1)
      simpa using this
  refine ⟨(s.order.length : Int), rfl, ?_, ?_⟩
  · rw [hmain]
    constructor
    · intro h i a b h1 ha hb
      obtain ⟨p, rfl⟩ : ∃ p, i = p + 1 := ⟨i - 1, by omega⟩
      exact h p a b (by simpa using ha) hb
    · intro h i a b ha hb
      exact h (i + 1) a b (by omega) (by simpa using ha) hb
  · rw [hmain, sorted_iff_adjacent]

/-! ## `Range` with a visitor that leaves the map alone -/

section RangeLemmas
variable {K V : Type}

theorem drop_of_getElem? (l : List K) (i : Nat) (x : K) (h : l[i]? = some x) :
    l.drop i = x :: l.drop (i + 1) := by
  have hi : i < l.length := by
    by_contra hge
    rw [List.getElem?_eq_none (Nat.le_of_not_lt hge)] at h
    exact Option.noConfusion h
  rw [List.getElem?_eq_getElem hi] at h
  cases h
  exact List.drop_eq_getElem_cons hi

/-- Reading position `i` of a header at offset 0 reads the backing array there. -/
theorem memIndex_natCast (heap : List (List K)) (c : Slice) (i : Nat) (hoff : c.off = 0)
    (hi : i < c.len) : memIndex heap c (i : Int) = (backing heap c)[i]? := by
  have hc : 0 ≤ (i : Int) ∧ (i : Int) < (c.len : Int) := by omega
  unfold memIndex
  rw [if_pos hc, hoff]
  simp

theorem memElems_getElem? (heap : List (List K)) (c : Slice) (i : Nat) (hoff : c.off = 0)
    (hi : i < c.len) : (memElems heap c)[i]? = (backing heap c)[i]? := by
  unfold memElems
  rw [hoff, List.drop_zero, List.getElem?_take_of_lt hi]

theorem WF_length [DecidableEq K] [Inhabited K] [Inhabited V] (m : Mem K V) (h : m.WF) :
    m.view.order.length = m.order.len := by
  obtain ⟨hoff, hp⟩ := h
  show (memElems m.heap m.order).length = m.order.len
  unfold memElems backing
  rw [hoff]
  cases hptr : m.order.ptr with
  | none =>
    rw [hptr] at hp
    simp [hp]
  | some a =>
    rw [hptr] at hp
    simp only [List.drop_zero, List.length_take]
    exact Nat.min_eq_left hp.2

theorem calls_getElem? [Inhabited V] (m : Map K V) (i : Nat) (k : K) (h : m.order[i]? = some k) :
    m.calls[i]? = some ((i : Int), k, (mapGet m.dirty k).1) := by
  unfold Map.calls
  rw [List.getElem?_map, List.getElem?_enum, h]
  rfl

theorem calls_length [Inhabited V] (m : Map K V) : m.calls.length = m.order.length := by
  simp [Map.calls]

/-- The loop of `Range` with a visitor that leaves the map alone, from `index` on:
it makes the calls for the positions up to `stop`, the first one, if any, where the
visitor answers `false`. -/
theorem rangeLoop_pure [DecidableEq K] [Inhabited K] [Inhabited V] (grow : Nat → Nat → Nat)
    (f : Visitor K V) (m : Mem K V) (hwf : m.WF)
    (hpure : ∀ (st : Map K V) (i : Int) (k : K) (v : V), (f st i k v).2 = []) (stop : Nat)
    (hstop : stop ≤ m.order.len)
    (htrue : ∀ (j : Nat) (k : K), j < stop → m.view.order[j]? = some k →
      (f m.view (j : Int) k (mapGet m.dirty k).1).1 = true)
    (hfalse : ∀ k : K, m.view.order[stop]? = some k →
      (f m.view (stop : Int) k (mapGet m.dirty k).1).1 = false) :
    ∀ (left index : Nat), index + left = m.order.len → index ≤ stop →
      Mem.rangeLoop grow f m.order left index m
        = some ((m.view.calls.take (stop + 1)).drop index, m) := by
  have hlen := WF_length m hwf
  intro left
  induction left with
  | zero =>
    intro index hsum hle
    have hidx : index = m.order.len := by omega
    have hdrop : (m.view.calls.take (stop + 1)).drop index = [] := by
      apply List.drop_eq_nil_of_le
      rw [List.length_take, calls_length, hlen]
      omega
    rw [hdrop]
    rfl
  | succ left ih =>
    intro index hsum hle
    have hi : index < m.order.len := by omega
    have hkey : (memElems m.heap m.order)[index]? = (backing m.heap m.order)[index]? :=
      memElems_getElem? m.heap m.order index hwf.1 hi
    have hsome : m.view.order[index]? = some m.view.order[index] :=
      List.getElem?_eq_getElem (by rw [hlen]; exact hi)
    have hcall : ((m.view.calls.take (stop + 1)).drop index)
        = ((index : Int), m.view.order[index], (mapGet m.dirty m.view.order[index]).1)
          :: (m.view.calls.take (stop + 1)).drop (index + 1) := by
      apply drop_of_getElem?
      rw [List.getElem?_take_of_lt (by omega)]
      exact calls_getElem? m.view index _ hsome
    have hread : memIndex m.heap m.order (index : Int) = some m.view.order[index] := by
      rw [memIndex_natCast m.heap m.order index hwf.1 hi, ← hkey]
      exact hsome
    unfold Mem.rangeLoop
    rw [hread]
    simp only [Option.bind_eq_bind, Option.some_bind, hpure, Mem.run]
    by_cases hlt : index < stop
    · rw [htrue index _ hlt hsome, if_pos rfl, ih (index + 1) (by omega) (by omega), hcall]
      rfl
    · have heq : index = stop := by omega
      subst heq
      have hfl := hfalse _ hsome
      show (if (f m.view (index : Int) m.view.order[index]
          (mapGet m.dirty m.view.order[index]).1).1 = true then _ else _) = _
      rw [hfl, hcall]
      have hnil : (m.view.calls.take (index + 1)).drop (index + 1) = [] := by
        apply List.drop_eq_nil_of_le
        rw [List.length_take]
        omega
      rw [hnil]
      rfl

end RangeLemmas

/-- C22: on a state satisfying I1, with a visitor that leaves the map alone and
always answers `true`, `Range` calls the visitor once per position of `order`, in
increasing order, call `i` with `(i, order[i], v)` where `v` is the value stored for
`order[i]`; with an empty `order` it makes no call; the state is unchanged. -/
theorem Range_visits_all {K V : Type} [DecidableEq K] [Inhabited K] [Inhabited V]
    (grow : Nat → Nat → Nat) (f : Visitor K V) (m : Mem K V) (hwf : m.WF) (h1 : I1 m.view)
    (hpure : ∀ (st : Map K V) (i : Int) (k : K) (v : V), (f st i k v).2 = [])
    (htrue : ∀ (st : Map K V) (i : Int) (k : K) (v : V), (f st i k v).1 = true) :
    Mem.Range grow f m = some (m.view.calls, m) ∧
    m.view.calls.length = m.view.order.length ∧
    (∀ (i : Nat) (k : K), m.view.order[i]? = some k →
      ∃ v : V, m.view.entries k = some v ∧ m.view.calls[i]? = some ((i : Int), k, v)) ∧
    (m.view.order = [] → Mem.Range grow f m = some ([], m)) := by
  have hlen := WF_length m hwf
  have hrange : Mem.Range grow f m = some (m.view.calls, m) := by
    unfold Mem.Range
    by_cases h0 : m.order.len < 1
    · have hnil : m.view.order = [] := List.length_eq_zero.1 (by omega)
      rw [if_pos h0]
      simp [Map.calls, hnil]
    · rw [if_neg h0, rangeLoop_pure grow f m hwf hpure m.order.len (Nat.le_refl _)
        (fun j k _ _ => htrue _ _ _ _) ?_ m.order.len 0 (by omega) (Nat.zero_le _)]
      · rw [List.drop_zero, List.take_of_length_le]
        rw [calls_length, hlen]
        omega
      · intro k hk
        rw [List.getElem?_eq_none (by omega)] at hk
        exact Option.noConfusion hk
  refine ⟨hrange, calls_length m.view, ?_, ?_⟩
  · intro i k hk
    obtain ⟨v, hv⟩ := I1_entry_of_getElem? m.view h1 i k hk
    refine ⟨v, hv, ?_⟩
    rw [calls_getElem? m.view i k hk]
    have hget : mapGet m.dirty k = (v, true) := mapGet_of_lookup_some m.dirty k v hv
    rw [show m.view.dirty = m.dirty from rfl, hget]
  · intro hnil
    rw [hrange]
    simp [Map.calls, hnil]

/-- C23: on any state, with a visitor that leaves the map alone, if `p` is the
first position at which the visitor answers `false`, `Range` makes exactly the calls
for positions `0, 1, ..., p`, in that order, and none for a later position; the
state is unchanged. -/
theorem Range_early_exit {K V : Type} [DecidableEq K] [Inhabited K] [Inhabited V]
    (grow : Nat → Nat → Nat) (f : Visitor K V) (m : Mem K V) (hwf : m.WF)
    (hpure : ∀ (st : Map K V) (i : Int) (k : K) (v : V), (f st i k v).2 = []) (p : Nat)
    (hp : p < m.view.order.length)
    (hfalse : ∀ k : K, m.view.order[p]? = some k →
      (f m.view (p : Int) k (mapGet m.dirty k).1).1 = false)
    (hmin : ∀ (j : Nat) (k : K), j < p → m.view.order[j]? = some k →
      (f m.view (j : Int) k (mapGet m.dirty k).1).1 = true) :
    Mem.Range grow f m = some (m.view.calls.take (p + 1), m) ∧
    (m.view.calls.take (p + 1)).length = p + 1 ∧
    ∀ i : Nat, (m.view.calls.take (p + 1))[i]?
      = if i ≤ p then m.view.calls[i]? else none := by
  have hlen := WF_length m hwf
  refine ⟨?_, ?_, ?_⟩
  · unfold Mem.Range
    have h0 : ¬ m.order.len < 1 := by omega
    rw [if_neg h0, rangeLoop_pure grow f m hwf hpure p (by omega) hmin hfalse m.order.len 0
      (by omega) (Nat.zero_le _), List.drop_zero]
  · rw [List.length_take, calls_length]
    omega
  · intro i
    by_cases hi : i ≤ p
    · rw [if_pos hi, List.getElem?_take_of_lt (by omega)]
    · rw [if_neg hi, List.getElem?_eq_none]
      rw [List.length_take]
      omega

/-- C26: on the zero `Map`, `Len()` is 0, `Load(k)` is `(zero, false)`, `Index(n)`
is `(zero, zero, false)` for every `n`, `LoadAndDeleteFirst()` and
`LoadAndDeleteLast()` report `false`, and `Range` makes no call; none of them
changes the state. -/
theorem zero_map_is_empty {K V : Type} [DecidableEq K] [Inhabited K] [Inhabited V] :
    (Map.zero : Map K V).Len = some (0, Map.zero) ∧
    (∀ k : K, (Map.zero : Map K V).Load k = some ((default, false), Map.zero)) ∧
    (∀ n : Int, (Map.zero : Map K V).Index n = some ((default, default, false), Map.zero)) ∧
    (Map.zero : Map K V).LoadAndDeleteFirst = some ((default, default, false), Map.zero) ∧
    (Map.zero : Map K V).LoadAndDeleteLast = some ((default, default, false), Map.zero) ∧
    (Mem.zero : Mem K V).view = Map.zero ∧
    ∀ (grow : Nat → Nat → Nat) (f : Visitor K V),
      (Mem.zero : Mem K V).Range grow f = some ([], Mem.zero) := by
  refine ⟨rfl, fun k => rfl, ?_, rfl, rfl, rfl, fun grow f => rfl⟩
  intro n
  unfold Map.Index
  by_cases h0 : n ≥ 0
  · have hle : (((Map.zero : Map K V).order.length : Nat) : Int) ≤ n := by
      simpa [Map.zero] using h0
    rw [if_pos h0, if_pos hle]
  · have hlt : n < -(((Map.zero : Map K V).order.length : Nat) : Int) := by
      simp [Map.zero] at h0 ⊢
      omega
    rw [if_neg h0, if_pos hlt]

/-! ## `append` and the stores in memory -/

section AppendLemmas
variable {K : Type}

theorem getD_set_self (heap : List (List K)) (a : Nat) (arr : List K) (ha : a < heap.length) :
    (heap.set a arr).getD a [] = arr := by
  simp [List.getD_eq_getElem?_getD, List.getElem?_set, ha]

theorem getD_set_ne (heap : List (List K)) (a a0 : Nat) (arr : List K) (hne : a0 ≠ a) :
    (heap.set a arr).getD a0 [] = heap.getD a0 [] := by
  simp [List.getD_eq_getElem?_getD, List.getElem?_set_ne (Ne.symm hne)]

theorem getD_append_left (heap : List (List K)) (arr : List K) (a0 : Nat)
    (h : a0 < heap.length) : (heap ++ [arr]).getD a0 [] = heap.getD a0 [] := by
  simp [List.getD_eq_getElem?_getD, List.getElem?_append_left h]

theorem getD_append_length (heap : List (List K)) (arr : List K) :
    (heap ++ [arr]).getD heap.length [] = arr := by
  simp [List.getD_eq_getElem?_getD]

/-- What `append` does to a slice at offset 0 that lies inside its backing array:
the result lies inside its backing array, holds the old elements followed by the new
ones, and no array loses an element below the old length of `dst`. -/
theorem memAppend_spec [Inhabited K] (grow : Nat → Nat → Nat) (heap : List (List K))
    (dst : Slice) (elems : List K) (hoff : dst.off = 0)
    (hwf : match dst.ptr with
      | none => dst.len = 0
      | some a => a < heap.length ∧ dst.len ≤ (heap.getD a []).length) :
    (memAppend grow heap dst elems).2.off = 0 ∧
    (match (memAppend grow heap dst elems).2.ptr with
      | none => (memAppend grow heap dst elems).2.len = 0
      | some a => a < (memAppend grow heap dst elems).1.length ∧
          (memAppend grow heap dst elems).2.len
            ≤ ((memAppend grow heap dst elems).1.getD a []).length) ∧
    memElems (memAppend grow heap dst elems).1 (memAppend grow heap dst elems).2
      = memElems heap dst ++ elems ∧
    heap.length ≤ (memAppend grow heap dst elems).1.length ∧
    ((memAppend grow heap dst elems).2.ptr = dst.ptr ∨
      (memAppend grow heap dst elems).2.ptr = some heap.length) ∧
    (memAppend grow heap dst elems).2.len = dst.len + elems.length ∧
    (∀ (a0 i : Nat), a0 < heap.length → (dst.ptr = some a0 → i < dst.len) →
      ((memAppend grow heap dst elems).1.getD a0 [])[i]? = (heap.getD a0 [])[i]?) := by
  obtain ⟨ptr, off, len⟩ := dst
  simp only at hoff hwf
  subst hoff
  by_cases hfit : len + elems.length ≤ memCap heap ⟨ptr, 0, len⟩
  · cases ptr with
    | none =>
      simp only at hwf
      subst hwf
      have he : elems = [] := by
        have : elems.length = 0 := by
          simpa [memCap, backing] using hfit
        exact List.length_eq_zero.1 this
      subst he
      simp [memAppend, memCap, backing, memElems]
    | some a =>
      simp only at hwf
      obtain ⟨ha, hlen⟩ := hwf
      have hfit2 : len + elems.length ≤ (heap.getD a []).length := by
        simpa [memCap, backing] using hfit
      have hnew : ((heap.getD a []).take len ++ elems ++ (heap.getD a []).drop (len + elems.length)).length
          = (heap.getD a []).length := by
        simp only [List.length_append, List.length_take, List.length_drop]
        omega
      have hr : memAppend grow heap ⟨some a, 0, len⟩ elems
          = (heap.set a ((heap.getD a []).take len ++ elems
              ++ (heap.getD a []).drop (len + elems.length)),
            ⟨some a, 0, len + elems.length⟩) := by
        simp only [memAppend, if_pos hfit, Nat.zero_add]
      rw [hr]
      refine ⟨rfl, ?_, ?_, ?_, Or.inl rfl, rfl, ?_⟩
      · dsimp only
        rw [List.length_set]
        refine ⟨ha, ?_⟩
        rw [getD_set_self heap a _ ha, hnew]
        exact hfit2
      · dsimp only
        simp only [memElems, backing, List.drop_zero]
        rw [getD_set_self heap a _ ha]
        rw [List.append_assoc, List.take_append_eq_append_take, List.take_take]
        simp only [List.length_take]
        have h1 : min len (heap.getD a []).length = len := Nat.min_eq_left hlen
        have h2 : min (len + elems.length) len = len := Nat.min_eq_right (by omega)
        rw [h1, h2]
        have h3 : len + elems.length - len = elems.length := by omega
        rw [h3, List.take_append_eq_append_take, List.take_of_length_le (Nat.le_refl _)]
        simp
      · simp
      · intro a0 i ha0 hi
        dsimp only at hi ⊢
        by_cases heq : a0 = a
        · subst heq
          have hil : i < len := hi rfl
          rw [getD_set_self heap a0 _ ha, List.append_assoc,
            List.getElem?_append_left (by rw [List.length_take]; omega),
            List.getElem?_take_of_lt hil]
        · rw [getD_set_ne heap a a0 _ heq]
  · have hr : memAppend grow heap ⟨ptr, 0, len⟩ elems
        = (heap ++ [memElems heap ⟨ptr, 0, len⟩ ++ elems
            ++ List.replicate (grow (memCap heap ⟨ptr, 0, len⟩) (len + elems.length)) default],
          ⟨some heap.length, 0, len + elems.length⟩) := by
      simp only [memAppend, if_neg hfit]
    rw [hr]
    have hold : (memElems heap ⟨ptr, 0, len⟩).length = len := by
      cases ptr with
      | none =>
        simp only at hwf
        subst hwf
        simp [memElems]
      | some a =>
        simp only at hwf
        simp only [memElems, backing, List.drop_zero, List.length_take]
        exact Nat.min_eq_left hwf.2
    refine ⟨rfl, ?_, ?_, by simp, Or.inr rfl, rfl, ?_⟩
    · dsimp only
      rw [List.length_append, List.length_singleton]
      refine ⟨by omega, ?_⟩
      rw [getD_append_length]
      simp only [List.length_append, hold]
      omega
    · dsimp only
      have hback : backing (heap ++ [memElems heap ⟨ptr, 0, len⟩ ++ elems
            ++ List.replicate (grow (memCap heap ⟨ptr, 0, len⟩) (len + elems.length)) default])
            ⟨some heap.length, 0, len + elems.length⟩
          = memElems heap ⟨ptr, 0, len⟩ ++ elems
            ++ List.replicate (grow (memCap heap ⟨ptr, 0, len⟩) (len + elems.length)) default := by
        simp only [backing]
        rw [getD_append_length]
      have htake : ∀ (xs ys : List K), (xs ++ ys).take xs.length = xs := by
        intro xs ys
        simp
      have hl : (memElems heap ⟨ptr, 0, len⟩ ++ elems).length = len + elems.length := by
        rw [List.length_append, hold]
      generalize memElems heap ⟨ptr, 0, len⟩ = E at hback hl ⊢
      unfold memElems
      rw [hback, List.drop_zero, ← hl]
      exact htake _ _
    · intro a0 i ha0 _
      dsimp only
      rw [getD_append_left heap _ a0 ha0]

end AppendLemmas

section StoreMem
variable {K V : Type}

/-- The map part of `store` and `StoreFirst`: allocate `dirty` if it is nil, then
assign. -/
theorem mapSet_make [DecidableEq K] (d : GoMap K V) (k : K) (v : V) :
    mapSet (if d.isNone then mapMake else d) k v
      = some (some (Function.update (mapLookup d) k (some v))) := by
  cases d with
  | none =>
    simp only [Option.isNone_none, if_true, mapMake, mapSet]
    congr 2
  | some f =>
    simp only [Option.isNone_some, mapSet]
    rfl

theorem memElems_append_heap (heap : List (List K)) (arr : List K) (s : Slice)
    (h : match s.ptr with
      | none => True
      | some a => a < heap.length) :
    memElems (heap ++ [arr]) s = memElems heap s := by
  unfold memElems backing
  cases hp : s.ptr with
  | none => rfl
  | some a =>
    rw [hp] at h
    simp only at h ⊢
    rw [getD_append_left heap arr a h]

variable [DecidableEq K] [Inhabited K] [Inhabited V]

/-- `Store` in memory does to the state it stands for what `Store` does, and keeps
a captured array intact. -/
theorem Mem_Store_spec (grow : Nat → Nat → Nat) (m : Mem K V) (k : K) (v : V) (hwf : m.WF) :
    ∃ m1 : Mem K V, m.Store grow k v = some m1 ∧ m.view.Store k v = some m1.view ∧ m1.WF ∧
      ∀ (a0 : Nat) (ks : List K), m.Captured a0 ks → m1.Captured a0 ks := by
  obtain ⟨hoff, hp⟩ := hwf
  by_cases hk : (mapGet m.dirty k).2 = false
  · have hspec := memAppend_spec grow m.heap m.order [k] hoff hp
    obtain ⟨h1, h2, h3, h4, h5, h6, h7⟩ := hspec
    refine ⟨⟨(memAppend grow m.heap m.order [k]).1, (memAppend grow m.heap m.order [k]).2,
      some (Function.update (mapLookup m.dirty) k (some v))⟩, ?_, ?_, ⟨h1, h2⟩, ?_⟩
    · simp only [Mem.Store, Mem.store, if_pos hk, mapSet_make, Option.bind_eq_bind,
        Option.some_bind]
    · have hsome : ¬ ((m.view.entries k).isSome = true) := by
        show ¬ ((mapLookup m.dirty k).isSome = true)
        rw [← mapGet_snd m.dirty k, hk]
        exact Bool.false_ne_true
      rw [show m.view.Store k v = m.view.store k v from rfl, store_eq, if_neg hsome]
      simp only [Mem.view, h3]
      rfl
    · intro a0 ks ⟨_, ha0, hks, hlen⟩
      refine ⟨⟨h1, h2⟩, Nat.lt_of_lt_of_le ha0 h4, ?_, ?_⟩
      · intro i hi
        rw [h7 a0 i ha0 (fun hptr => Nat.lt_of_lt_of_le hi (hlen hptr))]
        exact hks i hi
      · intro hptr
        dsimp only at hptr ⊢
        rw [h6]
        rcases h5 with h5 | h5
        · rw [h5] at hptr
          have := hlen hptr
          omega
        · rw [h5] at hptr
          cases hptr
          omega
  · refine ⟨⟨m.heap, m.order, some (Function.update (mapLookup m.dirty) k (some v))⟩, ?_, ?_,
      ⟨hoff, hp⟩, ?_⟩
    · simp only [Mem.Store, Mem.store, if_neg hk, mapSet_make, Option.bind_eq_bind,
        Option.some_bind]
    · have hsome : (m.view.entries k).isSome = true := by
        show (mapLookup m.dirty k).isSome = true
        rw [← mapGet_snd m.dirty k]
        simpa using hk
      rw [show m.view.Store k v = m.view.store k v from rfl, store_eq, if_pos hsome]
      rfl
    · intro a0 ks ⟨_, ha0, hks, hlen⟩
      exact ⟨⟨hoff, hp⟩, ha0, hks, hlen⟩

end StoreMem

section StoreFirstMem
variable {K V : Type} [DecidableEq K] [Inhabited K] [Inhabited V]

/-- `StoreFirst` in memory does to the state it stands for what `StoreFirst` does,
and keeps a captured array intact. -/
theorem Mem_StoreFirst_spec (grow : Nat → Nat → Nat) (m : Mem K V) (k : K) (v : V)
    (hwf : m.WF) :
    ∃ m1 : Mem K V, m.StoreFirst grow k v = some m1 ∧ m.view.StoreFirst k v = some m1.view ∧
      m1.WF ∧ ∀ (a0 : Nat) (ks : List K), m.Captured a0 ks → m1.Captured a0 ks := by
  obtain ⟨hoff, hp⟩ := hwf
  by_cases hk : (mapGet m.dirty k).2 = false
  · have hlit : (match (⟨some m.heap.length, 0, 1⟩ : Slice).ptr with
        | none => (⟨some m.heap.length, 0, 1⟩ : Slice).len = 0
        | some a => a < (m.heap ++ [[k]]).length ∧
            (⟨some m.heap.length, 0, 1⟩ : Slice).len ≤ ((m.heap ++ [[k]]).getD a []).length) := by
      dsimp only
      rw [getD_append_length]
      simp
    have hel : memElems (m.heap ++ [[k]]) m.order = memElems m.heap m.order := by
      apply memElems_append_heap
      cases hptr : m.order.ptr with
      | none => trivial
      | some a =>
        rw [hptr] at hp
        exact hp.1
    have hlitel : memElems (m.heap ++ [[k]]) ⟨some m.heap.length, 0, 1⟩ = [k] := by
      simp only [memElems, backing, List.drop_zero]
      rw [getD_append_length]
      rfl
    obtain ⟨h1, h2, h3, h4, h5, h6, h7⟩ :=
      memAppend_spec grow (m.heap ++ [[k]]) ⟨some m.heap.length, 0, 1⟩
        (memElems (m.heap ++ [[k]]) m.order) rfl hlit
    refine ⟨⟨(memAppend grow (m.heap ++ [[k]]) ⟨some m.heap.length, 0, 1⟩
        (memElems (m.heap ++ [[k]]) m.order)).1,
      (memAppend grow (m.heap ++ [[k]]) ⟨some m.heap.length, 0, 1⟩
        (memElems (m.heap ++ [[k]]) m.order)).2,
      some (Function.update (mapLookup m.dirty) k (some v))⟩, ?_, ?_, ⟨h1, h2⟩, ?_⟩
    · simp only [Mem.StoreFirst, if_pos hk, mapSet_make, Option.bind_eq_bind,
        Option.some_bind]
    · have hsome : ¬ ((m.view.entries k).isSome = true) := by
        show ¬ ((mapLookup m.dirty k).isSome = true)
        rw [← mapGet_snd m.dirty k, hk]
        exact Bool.false_ne_true
      rw [StoreFirst_eq, if_neg hsome]
      unfold Mem.view
      dsimp only
      rw [h3, hlitel, hel]
      rfl
    · intro a0 ks ⟨_, ha0, hks, _⟩
      have ha1 : a0 < (m.heap ++ [[k]]).length := by
        rw [List.length_append, List.length_singleton]
        omega
      refine ⟨⟨h1, h2⟩, Nat.lt_of_lt_of_le ha1 h4, ?_, ?_⟩
      · intro i hi
        rw [h7 a0 i ha1 (fun hptr => by
          dsimp only at hptr
          cases hptr
          omega), getD_append_left m.heap [k] a0 ha0]
        exact hks i hi
      · intro hptr
        dsimp only at hptr
        rcases h5 with h5 | h5
        · rw [h5] at hptr
          cases hptr
          omega
        · rw [h5] at hptr
          cases hptr
          rw [List.length_append, List.length_singleton] at ha0
          omega
  · refine ⟨⟨m.heap, m.order, some (Function.update (mapLookup m.dirty) k (some v))⟩, ?_, ?_,
      ⟨hoff, hp⟩, ?_⟩
    · simp only [Mem.StoreFirst, if_neg hk, mapSet_make, Option.bind_eq_bind,
        Option.some_bind]
    · have hsome : (m.view.entries k).isSome = true := by
        show (mapLookup m.dirty k).isSome = true
        rw [← mapGet_snd m.dirty k]
        simpa using hk
      rw [StoreFirst_eq, if_pos hsome]
      rfl
    · intro a0 ks ⟨_, ha0, hks, hlen⟩
      exact ⟨⟨hoff, hp⟩, ha0, hks, hlen⟩

/-- A sequence of `Store` and `StoreFirst` calls in memory. -/
theorem Mem_run_stores (grow : Nat → Nat → Nat) :
    ∀ (ops : List (Op K V)) (m : Mem K V), m.WF →
      (∀ op ∈ ops, ∃ (k : K) (v : V), op = Op.Store k v ∨ op = Op.StoreFirst k v) →
      ∃ m1 : Mem K V, Mem.run grow m ops = some m1 ∧ m.view.run ops = some m1.view ∧ m1.WF ∧
        ∀ (a0 : Nat) (ks : List K), m.Captured a0 ks → m1.Captured a0 ks := by
  intro ops
  induction ops with
  | nil =>
    intro m hwf _
    exact ⟨m, rfl, rfl, hwf, fun _ _ h => h⟩
  | cons op rest ih =>
    intro m hwf hops
    obtain ⟨k, v, hop⟩ := hops op (List.mem_cons_self op rest)
    have hrest : ∀ op1 ∈ rest, ∃ (k : K) (v : V), op1 = Op.Store k v ∨ op1 = Op.StoreFirst k v :=
      fun op1 h => hops op1 (List.mem_cons_of_mem op h)
    rcases hop with hop | hop
    · subst hop
      obtain ⟨m1, hm1, hv1, hwf1, hc1⟩ := Mem_Store_spec grow m k v hwf
      obtain ⟨m2, hm2, hv2, hwf2, hc2⟩ := ih m1 hwf1 hrest
      refine ⟨m2, ?_, ?_, hwf2, fun a0 ks h => hc2 a0 ks (hc1 a0 ks h)⟩
      · simp only [Mem.run, Mem.apply, hm1, Option.some_bind]
        exact hm2
      · simp only [Map.run, Op.apply, hv1, Option.some_bind]
        exact hv2
    · subst hop
      obtain ⟨m1, hm1, hv1, hwf1, hc1⟩ := Mem_StoreFirst_spec grow m k v hwf
      obtain ⟨m2, hm2, hv2, hwf2, hc2⟩ := ih m1 hwf1 hrest
      refine ⟨m2, ?_, ?_, hwf2, fun a0 ks h => hc2 a0 ks (hc1 a0 ks h)⟩
      · simp only [Mem.run, Mem.apply, hm1, Option.some_bind]
        exact hm2
      · simp only [Map.run, Op.apply, hv1, Option.some_bind]
        exact hv2

end StoreFirstMem

/-! ## `Range` with a visitor that changes the map -/

section RangeStores
variable {K V : Type} [DecidableEq K] [Inhabited K] [Inhabited V]

/-- The loop of `Range` with a visitor that only calls `Store` and `StoreFirst`,
over an array that still holds the captured keys `ks`: it does what the loop over
the captured keys does. -/
theorem rangeLoop_stores (grow : Nat → Nat → Nat) (f : Visitor K V) (a0 : Nat) (ks : List K)
    (hstore : ∀ (st : Map K V) (i : Int) (k : K) (v : V), ∀ op ∈ (f st i k v).2,
      ∃ (k1 : K) (v1 : V), op = Op.Store k1 v1 ∨ op = Op.StoreFirst k1 v1) :
    ∀ (left index : Nat) (m : Mem K V), m.Captured a0 ks → index + left = ks.length →
      ∃ (tr : List (Int × K × V)) (m1 : Mem K V),
        Mem.rangeLoop grow f ⟨some a0, 0, ks.length⟩ left index m = some (tr, m1) ∧
        Map.rangeSnapshot f (ks.drop index) index m.view = some (tr, m1.view) := by
  intro left
  induction left with
  | zero =>
    intro index m _ hsum
    have hnil : ks.drop index = [] := List.drop_eq_nil_of_le (by omega)
    rw [hnil]
    exact ⟨[], m, rfl, rfl⟩
  | succ left ih =>
    intro index m hcap hsum
    have hi : index < ks.length := by omega
    obtain ⟨hwf, ha0, hks, _⟩ := hcap
    have hkey : ks[index]? = some ks[index] := List.getElem?_eq_getElem hi
    have hread : memIndex m.heap ⟨some a0, 0, ks.length⟩ (index : Int) = some ks[index] := by
      rw [memIndex_natCast m.heap ⟨some a0, 0, ks.length⟩ index rfl hi]
      show (m.heap.getD a0 [])[index]? = some ks[index]
      rw [hks index hi, hkey]
    obtain ⟨m1, hm1, hv1, hwf1, hc1⟩ := Mem_run_stores grow
      (f m.view (index : Int) ks[index] (mapGet m.dirty ks[index]).1).2 m hwf
      (hstore _ _ _ _)
    have hcap1 : m1.Captured a0 ks := hc1 a0 ks ⟨hwf, ha0, hks, by assumption⟩
    have hv1b : m.view.run (f m.view (index : Int) ks[index]
        (mapGet m.view.dirty ks[index]).1).2 = some m1.view := hv1
    rw [drop_of_getElem? ks index _ hkey]
    unfold Mem.rangeLoop Map.rangeSnapshot
    rw [hread]
    simp only [Option.bind_eq_bind, Option.some_bind, hm1, hv1b]
    by_cases hb : (f m.view (index : Int) ks[index] (mapGet m.dirty ks[index]).1).1 = true
    · obtain ⟨tr, m2, hloop, hsnap⟩ := ih (index + 1) m1 hcap1 (by omega)
      have hb2 : (f m.view (index : Int) ks[index] (mapGet m.view.dirty ks[index]).1).1 = true :=
        hb
      rw [if_pos hb, if_pos hb2, hloop, hsnap]
      exact ⟨_, m2, rfl, rfl⟩
    · have hb2 :
          ¬ (f m.view (index : Int) ks[index] (mapGet m.view.dirty ks[index]).1).1 = true := hb
      rw [if_neg hb, if_neg hb2]
      exact ⟨_, m1, rfl, rfl⟩

/-- With a visitor that always answers `true`, the loop over captured keys visits
each of them, with its index. -/
theorem rangeSnapshot_keys (f : Visitor K V)
    (htrue : ∀ (st : Map K V) (i : Int) (k : K) (v : V), (f st i k v).1 = true) :
    ∀ (keys : List K) (index : Nat) (m m1 : Map K V) (tr : List (Int × K × V)),
      Map.rangeSnapshot f keys index m = some (tr, m1) →
      tr.map (fun c => (c.1, c.2.1)) = (keys.enumFrom index).map (fun p => ((p.1 : Int), p.2)) := by
  intro keys
  induction keys with
  | nil =>
    intro index m m1 tr h
    simp only [Map.rangeSnapshot, Option.some.injEq, Prod.mk.injEq] at h
    rw [← h.1]
    rfl
  | cons key keys ih =>
    intro index m m1 tr h
    unfold Map.rangeSnapshot at h
    simp only [Option.bind_eq_bind, htrue, if_true] at h
    cases hrun : m.run (f m (index : Int) key (mapGet m.dirty key).1).2 with
    | none =>
      rw [hrun] at h
      exact Option.noConfusion h
    | some m2 =>
      rw [hrun] at h
      simp only [Option.some_bind] at h
      cases hrest : Map.rangeSnapshot f keys (index + 1) m2 with
      | none =>
        rw [hrest] at h
        exact Option.noConfusion h
      | some rest =>
        rw [hrest] at h
        simp only [Option.some_bind, Option.some.injEq, Prod.mk.injEq] at h
        rw [← h.1, List.map_cons, List.enumFrom_cons, List.map_cons,
          ih (index + 1) m2 rest.2 rest.1 hrest]

end RangeStores

/-- On any state, with a visitor that always answers `true` and calls only `Store`
and `StoreFirst` on the map, `Range` makes the calls of the loop over the key
sequence captured at call start: call `i` receives index `i`, the key that was at
position `i` when `Range` was called, and the value stored for that key at the
moment of the call (the zero value if it has none).  These two methods never write
below the captured length of the array `Range` reads. -/
theorem Range_store_visitor {K V : Type} [DecidableEq K] [Inhabited K] [Inhabited V]
    (grow : Nat → Nat → Nat) (f : Visitor K V) (m : Mem K V) (hwf : m.WF)
    (hstore : ∀ (st : Map K V) (i : Int) (k : K) (v : V), ∀ op ∈ (f st i k v).2,
      ∃ (k1 : K) (v1 : V), op = Op.Store k1 v1 ∨ op = Op.StoreFirst k1 v1)
    (htrue : ∀ (st : Map K V) (i : Int) (k : K) (v : V), (f st i k v).1 = true) :
    ∃ (tr : List (Int × K × V)) (m1 : Mem K V), Mem.Range grow f m = some (tr, m1) ∧
      Map.rangeSnapshot f m.view.order 0 m.view = some (tr, m1.view) ∧
      tr.map (fun c => (c.1, c.2.1)) = m.view.order.enum.map (fun p => ((p.1 : Int), p.2)) := by
  have hlen := WF_length m hwf
  have hmain : ∃ (tr : List (Int × K × V)) (m1 : Mem K V), Mem.Range grow f m = some (tr, m1) ∧
      Map.rangeSnapshot f m.view.order 0 m.view = some (tr, m1.view) := by
    by_cases h0 : m.order.len < 1
    · have hnil : m.view.order = [] := List.length_eq_zero.1 (by omega)
      refine ⟨[], m, ?_, ?_⟩
      · unfold Mem.Range
        rw [if_pos h0]
      · rw [hnil]
        rfl
    · obtain ⟨hoff, hp⟩ := hwf
      cases hptr : m.order.ptr with
      | none =>
        rw [hptr] at hp
        exact absurd hp (by omega)
      | some a0 =>
        have hp2 := hp
        rw [hptr] at hp2
        have hc : m.order = ⟨some a0, 0, m.view.order.length⟩ := by
          have heta : m.order = ⟨m.order.ptr, m.order.off, m.order.len⟩ := rfl
          rw [heta, hptr, hoff, hlen]
        have hcap : m.Captured a0 m.view.order := by
          refine ⟨⟨hoff, hp⟩, hp2.1, ?_, fun _ => by omega⟩
          intro i hi
          have := memElems_getElem? m.heap m.order i hoff (by omega)
          rw [show backing m.heap m.order = m.heap.getD a0 [] by simp [backing, hptr]] at this
          exact this.symm
        obtain ⟨tr, m1, hloop, hsnap⟩ :=
          rangeLoop_stores grow f a0 m.view.order hstore m.view.order.length 0 m hcap (by omega)
        refine ⟨tr, m1, ?_, ?_⟩
        · unfold Mem.Range
          rw [if_neg h0]
          rw [← hc, hlen] at hloop
          exact hloop
        · simpa using hsnap
  obtain ⟨tr, m1, hr, hs⟩ := hmain
  exact ⟨tr, m1, hr, hs, rangeSnapshot_keys f htrue _ 0 _ _ _ hs⟩

theorem memABC_WF : memABC.WF := ⟨rfl, Nat.zero_lt_one, Nat.le_refl 3⟩

/-- Instance of `Range_store_visitor`: the storing visitor on `[a, b, c]`. -/
theorem Range_store_visitor_witness :
    ∃ (tr : List (Int × String × Int)) (m1 : Mem String Int),
      Mem.Range (fun _ n => n) storeVisitor memABC = some (tr, m1) ∧
      Map.rangeSnapshot storeVisitor memABC.view.order 0 memABC.view = some (tr, m1.view) ∧
      tr.map (fun c => (c.1, c.2.1))
        = memABC.view.order.enum.map (fun p => ((p.1 : Int), p.2)) :=
  Range_store_visitor (fun _ n => n) storeVisitor memABC memABC_WF
    (by
      intro st i k v op hop
      by_cases hi : i = 0
      · simp only [storeVisitor, hi, if_true, List.mem_cons, List.mem_singleton,
          List.not_mem_nil, or_false] at hop
        rcases hop with h | h | h <;> subst h
        · exact ⟨_, _, Or.inl rfl⟩
        · exact ⟨_, _, Or.inr rfl⟩
        · exact ⟨_, _, Or.inl rfl⟩
      · simp [storeVisitor, hi] at hop)
    (fun _ _ _ _ => rfl)

/-- On `order = [a, b, c]` with a visitor that always answers `true` and calls
`Swap(1, 2)` during its first visit, the second call receives the key `c`, not the
key `b` that was at position 1 when `Range` was called. -/
theorem Range_swap_visitor_sees_swapped_keys :
    memABC.WF ∧ (∀ (st : Map String Int) (i : Int) (k : String) (v : Int),
      (swapVisitor st i k v).1 = true) ∧
    memABC.view.order = ["a", "b", "c"] ∧
    ∃ (tr : List (Int × String × Int)) (m1 : Mem String Int),
      Mem.Range (fun _ _ => 0) swapVisitor memABC = some (tr, m1) ∧
      tr = [(0, "a", 1), (1, "c", 3), (2, "b", 2)] ∧
      tr.map (fun c => (c.1, c.2.1))
        ≠ memABC.view.order.enum.map (fun p => ((p.1 : Int), p.2)) := by
  refine ⟨memABC_WF, fun _ _ _ _ => rfl, rfl, _, _, rfl, rfl, by decide⟩

/-! ## `Range` with a visitor that deletes or swaps -/

/-- C24: what `Range` does on `order = [a, b, c]`, `dirty = {a: 1, b: 2, c: 3}` when
the visitor always answers `true` and changes the map during its first visit.  With
`Delete("a")`, and likewise with `LoadAndDelete("a")`, the calls are `(0, a, 1)`,
`(1, c, 3)`, `(2, c, 3)`: the key `b`, which was at position 1 when `Range` was
called and still has its entry afterwards, is never passed, and `c` is passed
twice.  With `Swap(1, 2)` the calls are `(0, a, 1)`, `(1, c, 3)`, `(2, b, 2)`.  In
each case the keys passed are not the key sequence captured at call start. -/
theorem Range_deleting_visitor_skips_key :
    memABC.WF ∧ memABC.view.order = ["a", "b", "c"] ∧
    (∀ (st : Map String Int) (i : Int) (k : String) (v : Int),
      (deleteVisitor st i k v).1 = true ∧ (loadAndDeleteVisitor st i k v).1 = true ∧
      (swapVisitor st i k v).1 = true) ∧
    (∃ (tr : List (Int × String × Int)) (m1 : Mem String Int),
      Mem.Range (fun _ _ => 0) deleteVisitor memABC = some (tr, m1) ∧
      tr = [(0, "a", 1), (1, "c", 3), (2, "c", 3)] ∧
      m1.view.order = ["b", "c"] ∧ m1.view.entries "b" = some 2 ∧
      (∀ c ∈ tr, c.2.1 ≠ "b") ∧
      tr.map (fun c => (c.1, c.2.1))
        ≠ memABC.view.order.enum.map (fun p => ((p.1 : Int), p.2))) ∧
    (∃ (tr : List (Int × String × Int)) (m1 : Mem String Int),
      Mem.Range (fun _ _ => 0) loadAndDeleteVisitor memABC = some (tr, m1) ∧
      tr = [(0, "a", 1), (1, "c", 3), (2, "c", 3)] ∧
      m1.view.order = ["b", "c"] ∧ m1.view.entries "b" = some 2 ∧
      (∀ c ∈ tr, c.2.1 ≠ "b") ∧
      tr.map (fun c => (c.1, c.2.1))
        ≠ memABC.view.order.enum.map (fun p => ((p.1 : Int), p.2))) ∧
    (∃ (tr : List (Int × String × Int)) (m1 : Mem String Int),
      Mem.Range (fun _ _ => 0) swapVisitor memABC = some (tr, m1) ∧
      tr = [(0, "a", 1), (1, "c", 3), (2, "b", 2)] ∧
      m1.view.order = ["a", "c", "b"] ∧
      tr.map (fun c => (c.1, c.2.1))
        ≠ memABC.view.order.enum.map (fun p => ((p.1 : Int), p.2))) := by
  refine ⟨memABC_WF, rfl, fun _ _ _ _ => ⟨rfl, rfl, rfl⟩,
    ⟨_, _, rfl, rfl, rfl, by decide, by decide, by decide⟩,
    ⟨_, _, rfl, rfl, rfl, by decide, by decide, by decide⟩,
    ⟨_, _, rfl, rfl, rfl, by decide⟩⟩

/-! ## Further instances -/

theorem memABC_I1 : I1 memABC.view := by
  intro k
  show k ∈ ["a", "b", "c"] ↔ _
  simp [memABC, Mem.view, Map.entries, mapLookup, Function.update_apply]
  by_cases hc : k = "c"
  · simp [hc]
  · by_cases hb : k = "b"
    · simp [hb]
    · by_cases ha : k = "a"
      · simp [ha]
      · simp [ha, hb, hc]

/-- Instance of `Range_visits_all`: the idle visitor on `[a, b, c]`. -/
theorem Range_visits_all_witness :
    Mem.Range (fun _ _ => 0) idleVisitor memABC = some (memABC.view.calls, memABC) ∧
    memABC.view.calls = [(0, "a", 1), (1, "b", 2), (2, "c", 3)] ∧
    memABC.view.calls.length = memABC.view.order.length :=
  ⟨(Range_visits_all (fun _ _ => 0) idleVisitor memABC memABC_WF memABC_I1
      (fun _ _ _ _ => rfl) (fun _ _ _ _ => rfl)).1, by decide,
    (Range_visits_all (fun _ _ => 0) idleVisitor memABC memABC_WF memABC_I1
      (fun _ _ _ _ => rfl) (fun _ _ _ _ => rfl)).2.1⟩

/-- Instance of `Range_early_exit`: a visitor answering `false` at index 1 of
`[a, b, c]`. -/
theorem Range_early_exit_witness :
    Mem.Range (fun _ _ => 0) stopVisitor memABC
      = some (memABC.view.calls.take (1 + 1), memABC) ∧
    memABC.view.calls.take (1 + 1) = [(0, "a", 1), (1, "b", 2)] :=
  ⟨(Range_early_exit (fun _ _ => 0) stopVisitor memABC memABC_WF (fun _ _ _ _ => rfl) 1
      (by decide) (fun _ _ => rfl)
      (fun j k hj _ => by
        have h0 : j = 0 := by omega
        subst h0
        rfl)).1, by decide⟩

/-- Instance of `ops_preserve_invariants`: the state `[a, b]`. -/
theorem ops_preserve_invariants_witness :
    I1 exAB ∧ I2 exAB ∧
    (∃ m1 : Map String Int, exAB.Store "c" 3 = some m1 ∧ I1 m1 ∧ I2 m1) ∧
    (∃ m1 : Map String Int, exAB.Delete "a" = some m1 ∧ I1 m1 ∧ I2 m1) ∧
    (∃ m1 : Map String Int, exAB.Swap 0 1 = some m1 ∧ I1 m1 ∧ I2 m1) :=
  ⟨exAB_I1, exAB_I2, (ops_preserve_invariants exAB exAB_I1 exAB_I2).1 "c" 3,
    (ops_preserve_invariants exAB exAB_I1 exAB_I2).2.2.2.1 "a",
    (ops_preserve_invariants exAB exAB_I1 exAB_I2).2.2.2.2.2 0 1⟩

/-! ## The methods in memory agree with the methods on `(order, dirty)` -/

section Refinement
variable {K V : Type} [DecidableEq K] [Inhabited K] [Inhabited V]

/-- Reading `order` in memory reads the sequence it stands for. -/
theorem memIndex_view (m : Mem K V) (hwf : m.WF) (i : Int) :
    memIndex m.heap m.order i = sliceIndex m.view.order i := by
  have hlen := WF_length m hwf
  unfold memIndex sliceIndex
  rw [hlen]
  by_cases hc : 0 ≤ i ∧ i < (m.order.len : Int)
  · rw [if_pos hc, if_pos hc, hwf.1, Nat.zero_add]
    exact (memElems_getElem? m.heap m.order i.toNat hwf.1 (by omega)).symm
  · rw [if_neg hc, if_neg hc]

/-- `Swap` in memory does to the state it stands for what `Swap` does. -/
theorem Mem_Swap_spec (m : Mem K V) (i j : Int) (hwf : m.WF) :
    ∃ m1 : Mem K V, m.Swap i j = some m1 ∧ m.view.Swap i j = some m1.view ∧ m1.WF := by
  have hlen := WF_length m hwf
  by_cases hc : i < 0 ∨ i ≥ (m.order.len : Int) ∨ j < 0 ∨ j ≥ (m.order.len : Int)
  · refine ⟨m, ?_, ?_, hwf⟩
    · unfold Mem.Swap
      rw [if_pos hc]
    · unfold Map.Swap
      rw [hlen, if_pos hc]
  · have hi0 : 0 ≤ i := by omega
    have hj0 : 0 ≤ j := by omega
    obtain ⟨a, rfl⟩ := Int.eq_ofNat_of_zero_le hi0
    obtain ⟨b, rfl⟩ := Int.eq_ofNat_of_zero_le hj0
    have ha : a < m.order.len := by omega
    have hb : b < m.order.len := by omega
    have hav : a < m.view.order.length := by omega
    have hbv : b < m.view.order.length := by omega
    obtain ⟨hoff, hp⟩ := hwf
    cases hptr : m.order.ptr with
    | none =>
      rw [hptr] at hp
      exact absurd hp (by omega)
    | some a0 =>
      have hp2 := hp
      rw [hptr] at hp2
      obtain ⟨ha0, hcap⟩ := hp2
      have hrj : memIndex m.heap m.order (b : Int) = some m.view.order[b] := by
        rw [memIndex_view m ⟨hoff, hp⟩, sliceIndex_natCast, List.getElem?_eq_getElem hbv]
      have hri : memIndex m.heap m.order (a : Int) = some m.view.order[a] := by
        rw [memIndex_view m ⟨hoff, hp⟩, sliceIndex_natCast, List.getElem?_eq_getElem hav]
      have hset1 : ∀ (heap : List (List K)) (p : Nat) (x : K), p < m.order.len →
          memSet heap m.order (p : Int) x
            = some (heap.set a0 ((heap.getD a0 []).set p x)) := by
        intro heap p x hpl
        have hcond : 0 ≤ (p : Int) ∧ (p : Int) < (m.order.len : Int) := by omega
        unfold memSet
        rw [if_pos hcond, hptr, hoff]
        simp
      have hswap : m.Swap (a : Int) (b : Int)
          = some ⟨m.heap.set a0 (((m.heap.getD a0 []).set a m.view.order[b]).set b
              m.view.order[a]), m.order, m.dirty⟩ := by
        unfold Mem.Swap
        rw [if_neg hc, hrj, hri]
        simp only [Option.bind_eq_bind, Option.some_bind, hset1 _ a _ ha, hset1 _ b _ hb,
          getD_set_self m.heap a0 _ ha0, List.set_set]
      refine ⟨_, hswap, ?_, ?_⟩
      · rw [Swap_eq m.view a b hav hbv]
        congr 1
        show (⟨(m.view.order.set a m.view.order[b]).set b m.view.order[a], m.dirty⟩ : Map K V)
          = ⟨memElems _ m.order, m.dirty⟩
        congr 1
        simp only [memElems, backing, hptr, hoff, List.drop_zero]
        rw [getD_set_self m.heap a0 _ ha0, List.set_take, List.set_take]
        simp only [Mem.view, memElems, backing, hptr, hoff, List.drop_zero]
      · refine ⟨hoff, ?_⟩
        rw [hptr]
        dsimp only
        rw [List.length_set, getD_set_self m.heap a0 _ ha0, List.length_set, List.length_set]
        exact ⟨ha0, hcap⟩

end Refinement

section Refinement2
variable {K V : Type} [DecidableEq K] [Inhabited K] [Inhabited V]

/-- The loop of `LoadAndDelete` in memory, on a header at offset 0 inside its
backing array: it returns, the result lies inside its backing array, and its
elements are the old ones with the first occurrence of `key` from index `i` on
removed. -/
theorem Mem_deleteLoop_spec (grow : Nat → Nat → Nat) (heap : List (List K)) (a : Nat)
    (len : Nat) (key : K) (ha : a < heap.length) (hlen : len ≤ (heap.getD a []).length) :
    ∀ (fuel i : Nat), i ≤ len → len + 1 ≤ fuel + i →
      ∃ r : List (List K) × Slice,
        Mem.deleteLoop grow heap ⟨some a, 0, len⟩ key fuel i = some r ∧
        r.2.off = 0 ∧
        (match r.2.ptr with
          | none => r.2.len = 0
          | some b => b < r.1.length ∧ r.2.len ≤ (r.1.getD b []).length) ∧
        memElems r.1 r.2 = ((heap.getD a []).take len).take i
          ++ (((heap.getD a []).take len).drop i).erase key := by
  have hE : memElems heap ⟨some a, 0, len⟩ = (heap.getD a []).take len := by
    simp [memElems, backing]
  have hElen : ((heap.getD a []).take len).length = len := by
    rw [List.length_take]
    exact Nat.min_eq_left hlen
  intro fuel
  induction fuel with
  | zero => intro i hi hf; omega
  | succ n ih =>
    intro i hi hf
    unfold Mem.deleteLoop
    by_cases hlt : i < len
    · have hltE : i < ((heap.getD a []).take len).length := by rw [hElen]; exact hlt
      have hd : ((heap.getD a []).take len).drop i
          = ((heap.getD a []).take len)[i] :: ((heap.getD a []).take len).drop (i + 1) :=
        List.drop_eq_getElem_cons hltE
      have hidx : memIndex heap ⟨some a, 0, len⟩ (i : Int)
          = some ((heap.getD a []).take len)[i] := by
        rw [memIndex_natCast heap ⟨some a, 0, len⟩ i rfl hlt,
          ← memElems_getElem? heap ⟨some a, 0, len⟩ i rfl hlt, hE,
          List.getElem?_eq_getElem hltE]
      rw [if_pos (show i < (⟨some a, 0, len⟩ : Slice).len from hlt), hidx, hd]
      by_cases hx : ((heap.getD a []).take len)[i] = key
      · have hto : memSliceTo heap ⟨some a, 0, len⟩ i = some ⟨some a, 0, i⟩ := by
          have : i ≤ memCap heap ⟨some a, 0, len⟩ := by
            simp only [memCap, backing]
            omega
          simp only [memSliceTo, if_pos this]
        have hfrom : memSliceFrom ⟨some a, 0, len⟩ (i + 1)
            = some ⟨some a, 0 + (i + 1), len - (i + 1)⟩ := by
          have : i + 1 ≤ (⟨some a, 0, len⟩ : Slice).len := hlt
          simp only [memSliceFrom, if_pos this]
        have hback : memElems heap ⟨some a, 0 + (i + 1), len - (i + 1)⟩
            = ((heap.getD a []).take len).drop (i + 1) := by
          simp only [memElems, backing, Nat.zero_add]
          rw [List.drop_take]
        have hfr : memElems heap ⟨some a, 0, i⟩ = ((heap.getD a []).take len).take i := by
          simp only [memElems, backing, List.drop_zero]
          rw [List.take_take, Nat.min_eq_left (Nat.le_of_lt hlt)]
        have hfwf : (match (⟨some a, 0, i⟩ : Slice).ptr with
            | none => (⟨some a, 0, i⟩ : Slice).len = 0
            | some b => b < heap.length ∧
                (⟨some a, 0, i⟩ : Slice).len ≤ (heap.getD b []).length) :=
          ⟨ha, by show i ≤ _; omega⟩
        obtain ⟨h1, h2, h3, _, _, _, _⟩ := memAppend_spec grow heap ⟨some a, 0, i⟩
          (((heap.getD a []).take len).drop (i + 1)) rfl hfwf
        refine ⟨memAppend grow heap ⟨some a, 0, i⟩ (((heap.getD a []).take len).drop (i + 1)),
          ?_, h1, h2, ?_⟩
        · simp only [Option.bind_eq_bind, Option.some_bind, ne_eq, hx, not_true_eq_false,
            if_false, hto, hfrom, hback]
        · rw [h3, hfr, hx, List.erase_cons_head]
      · have hne : (((heap.getD a []).take len)[i] == key) = false := by simpa using hx
        have ht : List.take (i + 1) ((heap.getD a []).take len)
            = List.take i ((heap.getD a []).take len) ++ [((heap.getD a []).take len)[i]] := by
          rw [List.take_succ, List.getElem?_eq_getElem hltE]; rfl
        obtain ⟨r, hr, hr1, hr2, hr3⟩ := ih (i + 1) hlt (by omega)
        refine ⟨r, ?_, hr1, hr2, ?_⟩
        · simp only [Option.bind_eq_bind, Option.some_bind, ne_eq, hx, not_false_eq_true,
            if_true]
          exact hr
        · rw [hr3, ht, List.erase_cons, hne, List.append_assoc]
          rfl
    · have hEq : i = len := by omega
      subst hEq
      refine ⟨(heap, ⟨some a, 0, i⟩), ?_, rfl, ⟨ha, hlen⟩, ?_⟩
      · rw [if_neg (show ¬ i < (⟨some a, 0, i⟩ : Slice).len from hlt)]
      · show memElems heap ⟨some a, 0, i⟩ = _
        have hnil : List.drop i (List.take i (heap.getD a [])) = [] :=
          List.drop_eq_nil_of_le (by rw [hElen])
        rw [hE, hnil, List.take_take, Nat.min_self]
        simp

/-- `LoadAndDelete` in memory does to the state it stands for what `LoadAndDelete`
does, and returns the same result. -/
theorem Mem_LoadAndDelete_spec (grow : Nat → Nat → Nat) (m : Mem K V) (key : K)
    (hwf : m.WF) :
    ∃ (r : V × Bool) (m1 : Mem K V), m.LoadAndDelete grow key = some (r, m1) ∧
      m.view.LoadAndDelete key = some (r, m1.view) ∧ m1.WF := by
  obtain ⟨hoff, hp⟩ := hwf
  rw [LoadAndDelete_eq]
  cases hptr : m.order.ptr with
  | none =>
    rw [hptr] at hp
    have hlen0 : m.order.len = 0 := hp
    have horder : m.order = ⟨none, 0, 0⟩ := by
      have heta : m.order = ⟨m.order.ptr, m.order.off, m.order.len⟩ := rfl
      rw [heta, hptr, hoff, hlen0]
    refine ⟨mapGet m.dirty key, ⟨m.heap, m.order, mapDelete m.dirty key⟩, ?_, ?_, ?_⟩
    · unfold Mem.LoadAndDelete
      rw [horder]
      rfl
    · have hnil : m.view.order = [] := by
        simp [Mem.view, memElems, backing, hptr]
      rw [hnil]
      show some ((mapGet m.dirty key), (⟨[], mapDelete m.dirty key⟩ : Map K V)) = _
      simp [Mem.view, memElems, backing, hptr]
    · refine ⟨hoff, ?_⟩
      rw [hptr]
      exact hlen0
  | some a =>
    have hp2 := hp
    rw [hptr] at hp2
    obtain ⟨ha, hlen⟩ := hp2
    have horder : m.order = ⟨some a, 0, m.order.len⟩ := by
      have heta : m.order = ⟨m.order.ptr, m.order.off, m.order.len⟩ := rfl
      rw [heta, hptr, hoff]
    obtain ⟨r, hr, hr1, hr2, hr3⟩ := Mem_deleteLoop_spec grow m.heap a m.order.len key ha hlen
      (m.order.len + 1) 0 (Nat.zero_le _) (by omega)
    rw [← horder] at hr
    refine ⟨mapGet m.dirty key, ⟨r.1, r.2, mapDelete m.dirty key⟩, ?_, ?_, ⟨hr1, hr2⟩⟩
    · unfold Mem.LoadAndDelete
      rw [hr]
      rfl
    · have hview : m.view.order = (m.heap.getD a []).take m.order.len := by
        simp [Mem.view, memElems, backing, hptr, hoff]
      show some (mapGet m.dirty key, (⟨m.view.order.erase key, mapDelete m.dirty key⟩ : Map K V))
        = some (mapGet m.dirty key, ⟨memElems r.1 r.2, mapDelete m.dirty key⟩)
      rw [hr3, hview]
      simp

end Refinement2

section Refinement3
variable {K V : Type} [DecidableEq K] [Inhabited K] [Inhabited V]

/-- `LoadAndDeleteFirst` in memory does to the state it stands for what
`LoadAndDeleteFirst` does, and returns the same result. -/
theorem Mem_LoadAndDeleteFirst_spec (m : Mem K V) (hwf : m.WF) :
    ∃ (r : K × V × Bool) (m1 : Mem K V), m.LoadAndDeleteFirst = some (r, m1) ∧
      m.view.LoadAndDeleteFirst = some (r, m1.view) ∧ m1.WF := by
  have hlen := WF_length m hwf
  unfold Mem.LoadAndDeleteFirst Map.LoadAndDeleteFirst
  rw [hlen]
  by_cases h0 : m.order.len < 1
  · rw [if_pos h0, if_pos h0]
    exact ⟨_, m, rfl, rfl, hwf⟩
  · have hpos : 0 < m.view.order.length := by omega
    have hidx : sliceIndex m.view.order 0 = some m.view.order[0] := by
      have := sliceIndex_natCast m.view.order 0
      rw [List.getElem?_eq_getElem hpos] at this
      simpa using this
    rw [if_neg h0, if_neg h0, memIndex_view m hwf, hidx]
    exact ⟨_, ⟨m.heap, m.order, mapDelete m.dirty m.view.order[0]⟩, rfl, rfl, hwf⟩

/-- `LoadAndDeleteLast` in memory does to the state it stands for what
`LoadAndDeleteLast` does, and returns the same result. -/
theorem Mem_LoadAndDeleteLast_spec (m : Mem K V) (hwf : m.WF) :
    ∃ (r : K × V × Bool) (m1 : Mem K V), m.LoadAndDeleteLast = some (r, m1) ∧
      m.view.LoadAndDeleteLast = some (r, m1.view) ∧ m1.WF := by
  have hlen := WF_length m hwf
  unfold Mem.LoadAndDeleteLast Map.LoadAndDeleteLast
  rw [hlen]
  by_cases h0 : m.order.len < 1
  · rw [if_pos h0, if_pos h0]
    exact ⟨_, m, rfl, rfl, hwf⟩
  · have hlt : m.order.len - 1 < m.view.order.length := by omega
    have hcast : ((m.order.len : Int) - 1) = ((m.order.len - 1 : Nat) : Int) := by omega
    have hidx : sliceIndex m.view.order ((m.order.len : Int) - 1)
        = some m.view.order[m.order.len - 1] := by
      rw [hcast, sliceIndex_natCast, List.getElem?_eq_getElem hlt]
    rw [if_neg h0, if_neg h0, memIndex_view m hwf, hidx]
    exact ⟨_, ⟨m.heap, m.order, mapDelete m.dirty m.view.order[m.order.len - 1]⟩, rfl, rfl,
      hwf⟩

/-- `LoadOrStore` in memory does to the state it stands for what `LoadOrStore`
does, and returns the same result. -/
theorem Mem_LoadOrStore_spec (grow : Nat → Nat → Nat) (m : Mem K V) (k : K) (v : V)
    (hwf : m.WF) :
    ∃ (r : V × Bool) (m1 : Mem K V), m.LoadOrStore grow k v = some (r, m1) ∧
      m.view.LoadOrStore k v = some (r, m1.view) ∧ m1.WF := by
  unfold Mem.LoadOrStore Map.LoadOrStore Map.load
  show ∃ (r : V × Bool) (m1 : Mem K V),
    (if (mapGet m.dirty k).2 = false then _ else _) = some (r, m1) ∧
    (if (mapGet m.dirty k).2 = false then _ else _) = some (r, m1.view) ∧ m1.WF
  by_cases hk : (mapGet m.dirty k).2 = false
  · obtain ⟨m1, hm1, hv1, hwf1, _⟩ := Mem_Store_spec grow m k v hwf
    have hm1b : m.store grow k v = some m1 := hm1
    have hv1b : m.view.store k v = some m1.view := hv1
    rw [if_pos hk, if_pos hk, hm1b, hv1b]
    exact ⟨_, m1, rfl, rfl, hwf1⟩
  · rw [if_neg hk, if_neg hk]
    exact ⟨_, m, rfl, rfl, hwf⟩

/-- Every mutating method in memory does to the state it stands for what the
method does on that state. -/
theorem Mem_apply_spec (grow : Nat → Nat → Nat) (m : Mem K V) (op : Op K V) (hwf : m.WF) :
    ∃ m1 : Mem K V, Mem.apply grow m op = some m1 ∧ op.apply m.view = some m1.view ∧ m1.WF := by
  cases op with
  | Store key value =>
    obtain ⟨m1, h1, h2, h3, _⟩ := Mem_Store_spec grow m key value hwf
    exact ⟨m1, h1, h2, h3⟩
  | StoreFirst key value =>
    obtain ⟨m1, h1, h2, h3, _⟩ := Mem_StoreFirst_spec grow m key value hwf
    exact ⟨m1, h1, h2, h3⟩
  | LoadOrStore key value =>
    obtain ⟨r, m1, h1, h2, h3⟩ := Mem_LoadOrStore_spec grow m key value hwf
    exact ⟨m1, by simp only [Mem.apply, h1, Option.map_some'],
      by simp only [Op.apply, h2, Option.map_some'], h3⟩
  | Delete key =>
    obtain ⟨r, m1, h1, h2, h3⟩ := Mem_LoadAndDelete_spec grow m key hwf
    exact ⟨m1, by simp only [Mem.apply, Mem.Delete, h1, Option.map_some'],
      by simp only [Op.apply, Map.Delete, h2, Option.map_some'], h3⟩
  | LoadAndDelete key =>
    obtain ⟨r, m1, h1, h2, h3⟩ := Mem_LoadAndDelete_spec grow m key hwf
    exact ⟨m1, by simp only [Mem.apply, h1, Option.map_some'],
      by simp only [Op.apply, h2, Option.map_some'], h3⟩
  | LoadAndDeleteFirst =>
    obtain ⟨r, m1, h1, h2, h3⟩ := Mem_LoadAndDeleteFirst_spec m hwf
    exact ⟨m1, by simp only [Mem.apply, h1, Option.map_some'],
      by simp only [Op.apply, h2, Option.map_some'], h3⟩
  | LoadAndDeleteLast =>
    obtain ⟨r, m1, h1, h2, h3⟩ := Mem_LoadAndDeleteLast_spec m hwf
    exact ⟨m1, by simp only [Mem.apply, h1, Option.map_some'],
      by simp only [Op.apply, h2, Option.map_some'], h3⟩
  | Swap i j =>
    obtain ⟨m1, h1, h2, h3⟩ := Mem_Swap_spec m i j hwf
    exact ⟨m1, h1, h2, h3⟩

/-- Every sequence of mutating calls in memory does to the state it stands for what
the sequence does on that state. -/
theorem Mem_run_spec (grow : Nat → Nat → Nat) :
    ∀ (ops : List (Op K V)) (m : Mem K V), m.WF →
      ∃ m1 : Mem K V, Mem.run grow m ops = some m1 ∧ m.view.run ops = some m1.view ∧ m1.WF := by
  intro ops
  induction ops with
  | nil =>
    intro m hwf
    exact ⟨m, rfl, rfl, hwf⟩
  | cons op rest ih =>
    intro m hwf
    obtain ⟨m1, h1, h2, h3⟩ := Mem_apply_spec grow m op hwf
    obtain ⟨m2, h4, h5, h6⟩ := ih m1 h3
    refine ⟨m2, ?_, ?_, h6⟩
    · simp only [Mem.run, h1, Option.some_bind]
      exact h4
    · simp only [Map.run, h2, Option.some_bind]
      exact h5

end Refinement3

/-! ## The two deletion loops -/

section NewDelete
variable {K V : Type} [DecidableEq K] [Inhabited K] [Inhabited V]

/-- On a header at offset 0 inside its backing array, the loop of `newLoadAndDelete`
returns what the loop of `LoadAndDelete` returns: the same memory and the same
header. -/
theorem Mem_newDeleteLoop_eq (grow : Nat → Nat → Nat) (heap : List (List K)) (a : Nat)
    (len : Nat) (key : K) (hlen : len ≤ (heap.getD a []).length) :
    ∀ (fuel i : Nat), Mem.newDeleteLoop heap ⟨some a, 0, len⟩ key fuel i
      = Mem.deleteLoop grow heap ⟨some a, 0, len⟩ key fuel i := by
  intro fuel
  induction fuel with
  | zero => intro i; rfl
  | succ n ih =>
    intro i
    unfold Mem.newDeleteLoop Mem.deleteLoop
    by_cases hlt : i < len
    · rw [if_pos (show i < (⟨some a, 0, len⟩ : Slice).len from hlt),
        if_pos (show i < (⟨some a, 0, len⟩ : Slice).len from hlt)]
      cases memIndex heap ⟨some a, 0, len⟩ (i : Int) with
      | none => rfl
      | some x =>
        simp only [Option.bind_eq_bind, Option.some_bind]
        by_cases hx : x = key
        · have hne : ¬ (x ≠ key) := fun h => h hx
          rw [if_neg hne, if_neg hne]
          have hfrom : memSliceFrom ⟨some a, 0, len⟩ (i + 1)
              = some ⟨some a, 0 + (i + 1), len - (i + 1)⟩ := by
            have : i + 1 ≤ (⟨some a, 0, len⟩ : Slice).len := hlt
            simp only [memSliceFrom, if_pos this]
          have hto : memSliceTo heap ⟨some a, 0, len⟩ i = some ⟨some a, 0, i⟩ := by
            have : i ≤ memCap heap ⟨some a, 0, len⟩ := by
              simp only [memCap, backing]
              omega
            simp only [memSliceTo, if_pos this]
          have hhi : (0 : Int) ≤ (len : Int) - 1 := by omega
          have hnat : ((len : Int) - 1).toNat = len - 1 := by omega
          have hto1 : memSliceTo heap ⟨some a, 0, len⟩ (len - 1) = some ⟨some a, 0, len - 1⟩ := by
            have : len - 1 ≤ memCap heap ⟨some a, 0, len⟩ := by
              simp only [memCap, backing]
              omega
            simp only [memSliceTo, if_pos this]
          have hdst : memSliceFrom ⟨some a, 0, len - 1⟩ i
              = some ⟨some a, 0 + i, len - 1 - i⟩ := by
            have : i ≤ (⟨some a, 0, len - 1⟩ : Slice).len := by
              show i ≤ len - 1
              omega
            simp only [memSliceFrom, if_pos this]
          have hE : (memElems heap ⟨some a, 0 + (i + 1), len - (i + 1)⟩).length
              = len - (i + 1) := by
            simp only [memElems, backing, List.length_take, List.length_drop]
            omega
          have hfit : (⟨some a, 0, i⟩ : Slice).len
              + (memElems heap ⟨some a, 0 + (i + 1), len - (i + 1)⟩).length
              ≤ memCap heap ⟨some a, 0, i⟩ := by
            rw [hE]
            simp only [memCap, backing]
            omega
          rw [hfrom, hto]
          simp only [Option.some_bind, if_pos hhi, hnat, hto1, hdst, memCopy, memAppend,
            if_pos hfit, hE]
          have hmin : min (len - 1 - i) (len - (i + 1)) = len - (i + 1) := by omega
          have hsum : i + (len - (i + 1)) = len - 1 := by omega
          have htake : ∀ l : List K, l.length = len - (i + 1) → l.take (len - (i + 1)) = l :=
            fun l hl => List.take_of_length_le (by omega)
          have hfit2 : len - 1 ≤ memCap heap ⟨some a, 0, i⟩ := by
            simp only [memCap, backing]
            omega
          rw [hmin, hsum, htake _ hE]
          simp only [Nat.zero_add, hsum, if_pos hfit2]
        · have hne : x ≠ key := hx
          rw [if_pos hne, if_pos hne]
          exact ih (i + 1)
    · rw [if_neg (show ¬ i < (⟨some a, 0, len⟩ : Slice).len from hlt),
        if_neg (show ¬ i < (⟨some a, 0, len⟩ : Slice).len from hlt)]

end NewDelete

/-- Every state `(order, dirty)` is the view of a well-formed state in memory. -/
theorem view_of_state {K V : Type} [DecidableEq K] [Inhabited K] [Inhabited V] (st : Map K V) :
    ∃ m : Mem K V, m.WF ∧ m.view = st := by
  refine ⟨⟨[st.order], ⟨some 0, 0, st.order.length⟩, st.dirty⟩, ⟨rfl, ?_, ?_⟩, ?_⟩
  · exact Nat.zero_lt_one
  · exact Nat.le_refl _
  · show (⟨memElems [st.order] ⟨some 0, 0, st.order.length⟩, st.dirty⟩ : Map K V) = st
    have : memElems [st.order] ⟨some 0, 0, st.order.length⟩ = st.order := by
      simp [memElems, backing]
    rw [this]

/-- C31: on every well-formed state in memory and for every key `k`,
`newLoadAndDelete(k)` (shorten `order` by one, then copy the tail over position `i`)
and `LoadAndDelete(k)` (append the tail to the front part) return the same
`(value, loaded)` pair and the same state in memory, hence the same `order`
sequence and entries; it is the state `LoadAndDelete(k)` returns on `(order,
dirty)`. -/
theorem newLoadAndDelete_equiv {K V : Type} [DecidableEq K] [Inhabited K] [Inhabited V]
    (grow : Nat → Nat → Nat) (m : Mem K V) (k : K) (hwf : m.WF) :
    ∃ (r : V × Bool) (m1 : Mem K V), m.newLoadAndDelete k = some (r, m1) ∧
      m.LoadAndDelete grow k = some (r, m1) ∧
      m.view.LoadAndDelete k = some (r, m1.view) ∧ m1.WF := by
  obtain ⟨r, m1, h1, h2, h3⟩ := Mem_LoadAndDelete_spec grow m k hwf
  refine ⟨r, m1, ?_, h1, h2, h3⟩
  rw [← h1]
  obtain ⟨hoff, hp⟩ := hwf
  have hloop : Mem.newDeleteLoop m.heap m.order k (m.order.len + 1) 0
      = Mem.deleteLoop grow m.heap m.order k (m.order.len + 1) 0 := by
    have heta : m.order = ⟨m.order.ptr, m.order.off, m.order.len⟩ := rfl
    cases hptr : m.order.ptr with
    | none =>
      rw [hptr] at hp
      have hlen0 : m.order.len = 0 := hp
      rw [heta, hptr, hoff, hlen0]
      rfl
    | some a =>
      rw [hptr] at hp
      rw [heta, hptr, hoff]
      exact Mem_newDeleteLoop_eq grow m.heap a m.order.len k hp.2 _ _
  unfold Mem.newLoadAndDelete Mem.LoadAndDelete
  rw [hloop]

/-- Instance of `newLoadAndDelete_equiv`: deleting `b` from `[a, b, c]`. -/
theorem newLoadAndDelete_equiv_witness :
    memABC.WF ∧
    ∃ (r : Int × Bool) (m1 : Mem String Int), memABC.newLoadAndDelete "b" = some (r, m1) ∧
      memABC.LoadAndDelete (fun _ _ => 0) "b" = some (r, m1) ∧
      memABC.view.LoadAndDelete "b" = some (r, m1.view) ∧ m1.WF :=
  ⟨memABC_WF, newLoadAndDelete_equiv (fun _ _ => 0) memABC "b" memABC_WF⟩

end Ordered
